import Mathlib

/-!
# gozam: audio fingerprinting

A shallow embedding of `pkg/fingerprint` (spectrogram construction, peak extraction, pair
hashing) and of the exact-vote matcher of `cmd/song_recog`, together with the properties
established about them.

Conventions of the embedding.

* Go's `int` is 64 bits wide.  Values are mathematical integers and every arithmetic operation
  of the hashing code, which works on arbitrary `Token` fields, is followed by `wrap64`, the
  two's-complement wrap; so is the arithmetic on the `int` parameters `binSize` and `overlap`
  of the spectrogram code and on the capacities given to `make`.  Arithmetic on loop indices
  that are bounded by the length of a slice held in memory is not wrapped.
* `container/heap` is Go's standard library; its `up`, `down`, `Push` and `Pop` are embedded
  from the library source.
* `float64` amplitudes and samples are exact rationals.
* Slice and loop indices are natural numbers; they are converted to `Int` where the source stores
  them in a `Token`.
* A Go run-time panic is the `Except.error` result of a function, with the kind of panic as the
  error value.
-/

namespace Gozam

/-! ## Machine integers -/

/-- Two's-complement wrap of an integer into the range `[-2^63, 2^63)` of Go's `int`. -/
def wrap64 (x : Int) : Int := (x + 2 ^ 63) % 2 ^ 64 - 2 ^ 63

/-- Go `a - b` on `int`. -/
def subInt (a b : Int) : Int := wrap64 (a - b)

/-- Go `a + b` on `int`. -/
def addInt (a b : Int) : Int := wrap64 (a + b)

/-- Go `a / b` on `int` for `b ≠ 0`: the quotient truncated toward zero; the one quotient
outside the range, `-2^63 / -1`, wraps to `-2^63`. -/
def divInt (a b : Int) : Int := wrap64 (Int.tdiv a b)

/-- Go `a * b` on `int`. -/
def mulInt (a b : Int) : Int := wrap64 (a * b)

/-- Go `-a` on `int`. -/
def negInt (a : Int) : Int := wrap64 (-a)

/-! ## Tokens and the pair hash (`fingerprint.go`) -/

/-- Go `type Token struct { Time, Freq int; Amp float64 }`. -/
structure Token where
  Time : Int
  Freq : Int
  Amp : ℚ
deriving DecidableEq

instance : Inhabited Token := ⟨⟨0, 0, 0⟩⟩

/-- Go `func absInt(x int) int`. -/
def absInt (x : Int) : Int := if x < 0 then negInt x else x

/-- Go `func ComputeTokenPairHash(t1, t2 Token) TokenPairHash`:
`t1.Freq * absInt(t1.Freq-t2.Freq) * absInt(t2.Time-t1.Time)`. -/
def ComputeTokenPairHash (t1 t2 : Token) : Int :=
  mulInt (mulInt t1.Freq (absInt (subInt t1.Freq t2.Freq))) (absInt (subInt t2.Time t1.Time))

/-! ## The hashing stage of `GetFingerPrint2` (lines 195-207) -/

/-- The inner loop `for _, t2 := range fp.Tokens[i:]` for a fixed `t1`; the list argument is
the part of `fp.Tokens[i:]` not yet visited and the `Finset` is `fp.Hashes`. -/
def hashInner2 (maxTokenTimeDiff : Int) (t1 : Token) : List Token → Finset Int → Finset Int
  | [], hashes => hashes
  | t2 :: rest, hashes =>
    if absInt (subInt t2.Time t1.Time) > maxTokenTimeDiff then hashes
    else if t1.Freq = t2.Freq then hashInner2 maxTokenTimeDiff t1 rest hashes
    else hashInner2 maxTokenTimeDiff t1 rest (insert (ComputeTokenPairHash t1 t2) hashes)

/-- The outer loop `for i, t1 := range fp.Tokens`; the list argument is `fp.Tokens[i:]`. -/
def hashOuter2 (maxTokenTimeDiff : Int) : List Token → Finset Int → Finset Int
  | [], hashes => hashes
  | t1 :: rest, hashes =>
    hashOuter2 maxTokenTimeDiff rest (hashInner2 maxTokenTimeDiff t1 (t1 :: rest) hashes)

/-- The hash set built by lines 195-207 from `fp.Tokens`, starting from the empty map. -/
def hashStage2 (tokens : List Token) (maxTokenTimeDiff : Int) : Finset Int :=
  hashOuter2 maxTokenTimeDiff tokens ∅

/-! ## Run-time faults -/

/-- The ways in which an evaluation stops without a result.  The first four are Go run-time
panics.  The last, `fuelExhausted`, is the iteration bound of a model loop running out; the
bounds are chosen so that it never arises (`chunkAndNormaliseAudio_ne_fuelExhausted`,
`drainLoop_spec`). -/
inductive Fault where
  | divideByZero
  | indexOutOfRange
  | sliceBounds
  | makeSliceCap
  | fuelExhausted
deriving DecidableEq

/-- The constant `maxAlloc` of the Go run-time on 64-bit platforms, `1 << 48` bytes. -/
def maxAlloc : Int := 2 ^ 48

/-- The test of `runtime.makeslice` for `make([]T, 0, cap)` with elements of `elemSize` bytes:
it panics (`makeslice: cap out of range`) when `cap` is negative or `elemSize * cap` exceeds
`maxAlloc`.  A `Token`, a `[]float64` header and a `[][]float64` header all take 24 bytes.  A
request within `maxAlloc` is taken to succeed. -/
def makePanics (elemSize cap : Int) : Bool :=
  decide (cap < 0 ∨ maxAlloc < elemSize * cap)

/-! ## `container/heap` over `PriorityQueue` (`fingerprint.go`, lines 18-47) -/

/-- Go `type PriorityQueue []Token`. -/
abbrev PriorityQueue := List Token

/-- Go `func (pq PriorityQueue) Less(i, j int) bool`: `pq[i].Amp < pq[j].Amp`. -/
def PriorityQueue.Less (pq : PriorityQueue) (i j : Nat) : Bool :=
  decide ((pq.getD i default).Amp < (pq.getD j default).Amp)

/-- Go `func (pq PriorityQueue) Swap(i, j int)`: `pq[i], pq[j] = pq[j], pq[i]`. -/
def PriorityQueue.Swap (pq : PriorityQueue) (i j : Nat) : PriorityQueue :=
  (pq.set i (pq.getD j default)).set j (pq.getD i default)

/-- The loop of `heap.up(h, j)` of Go's `container/heap`:
`for { i := (j - 1) / 2; if i == j || !h.Less(j, i) { break }; h.Swap(i, j); j = i }`.
The first argument bounds the number of iterations. -/
def heapUpLoop : Nat → PriorityQueue → Nat → PriorityQueue
  | 0, pq, _ => pq
  | fuel + 1, pq, j =>
    let i := (j - 1) / 2
    if i = j ∨ ¬ PriorityQueue.Less pq j i then pq
    else heapUpLoop fuel (PriorityQueue.Swap pq i j) i

/-- Go `heap.up(h, j)`; the index at least halves in every iteration, so `j + 1` iterations
suffice. -/
def heapUp (pq : PriorityQueue) (j : Nat) : PriorityQueue := heapUpLoop (j + 1) pq j

/-- The child selected in `heap.down`:
`j := j1; if j2 := j1 + 1; j2 < n && h.Less(j2, j1) { j = j2 }`. -/
def heapDownChild (pq : PriorityQueue) (j1 n : Nat) : Nat :=
  if j1 + 1 < n ∧ PriorityQueue.Less pq (j1 + 1) j1 then j1 + 1 else j1

/-- The loop of `heap.down(h, i0, n)` of Go's `container/heap`:
`for { j1 := 2*i + 1; if j1 >= n { break }; j := j1; if j2 := j1 + 1; j2 < n && h.Less(j2, j1)
{ j = j2 }; if !h.Less(j, i) { break }; h.Swap(i, j); i = j }`.
The first argument bounds the number of iterations. -/
def heapDownLoop : Nat → PriorityQueue → Nat → Nat → PriorityQueue
  | 0, pq, _, _ => pq
  | fuel + 1, pq, i, n =>
    let j1 := 2 * i + 1
    if j1 ≥ n then pq
    else
      let j := heapDownChild pq j1 n
      if ¬ PriorityQueue.Less pq j i then pq
      else heapDownLoop fuel (PriorityQueue.Swap pq i j) j n

/-- Go `heap.down(h, i0, n)`; the index grows in every iteration, so `n` iterations suffice. -/
def heapDown (pq : PriorityQueue) (i0 n : Nat) : PriorityQueue := heapDownLoop n pq i0 n

/-- Go `heap.Push(&pq, x)`: `pq.Push(x)` appends `x`, then `up(h, h.Len()-1)`. -/
def heapPush (pq : PriorityQueue) (x : Token) : PriorityQueue :=
  heapUp (pq ++ [x]) ((pq ++ [x]).length - 1)

/-- Go `heap.Pop(&pq)`: `n := h.Len() - 1; h.Swap(0, n); down(h, 0, n); return h.Pop()`, where
`pq.Pop()` removes and returns the last element.  On an empty queue `Swap(0, -1)` panics. -/
def heapPop (pq : PriorityQueue) : Except Fault (Token × PriorityQueue) :=
  if pq.length = 0 then .error .indexOutOfRange
  else
    let n := pq.length - 1
    let old := heapDown (PriorityQueue.Swap pq 0 n) 0 n
    .ok (old.getD n default, old.take n)

/-! ## Peak extraction (`fingerprint.go`) -/

/-- Go `type Spectrogram [][]float64`. -/
abbrev Spectrogram := List (List ℚ)

/-- The bounded insertion used by both extractors (lines 99-105 and 170-175):
`if len(pq) < capacity { heap.Push(&pq, token) } else if token.Amp > pq[0].Amp
{ heap.Pop(&pq); heap.Push(&pq, token) }`. -/
def offer (capacity : Nat) (pq : PriorityQueue) (token : Token) : Except Fault PriorityQueue :=
  if pq.length < capacity then .ok (heapPush pq token)
  else
    match pq[0]? with
    | none => .error .indexOutOfRange
    | some top =>
      if token.Amp > top.Amp then
        match heapPop pq with
        | .error e => .error e
        | .ok (_, pq1) => .ok (heapPush pq1 token)
      else .ok pq

/-- The loop `for pq.Len() > 0 { peaks = append(peaks, heap.Pop(&pq).(Token)) }`
(lines 111-113 and 179-181).  The first argument bounds the number of iterations. -/
def drainLoop : Nat → PriorityQueue → List Token → Except Fault (List Token)
  | 0, pq, peaks => if pq.length > 0 then .error .fuelExhausted else .ok peaks
  | fuel + 1, pq, peaks =>
    if pq.length > 0 then
      match heapPop pq with
      | .error e => .error e
      | .ok (x, pq1) => drainLoop fuel pq1 (peaks ++ [x])
    else .ok peaks

/-- The drain loop with one iteration per queued token. -/
def drain (pq : PriorityQueue) (peaks : List Token) : Except Fault (List Token) :=
  drainLoop pq.length pq peaks

/-- The integers `lo, lo+1, ..., hi` of a loop `for x := lo; x <= hi; x++`. -/
def intRange (lo hi : Int) : List Int :=
  (List.range (hi + 1 - lo).toNat).map fun (k : Nat) => lo + (k : Int)

/-- Go `func iterNbhd[T any](mat [][]T, i0, j0 int, ri, rj int, condition func(T) bool) bool`:
`false` as soon as `condition` holds at a cell of the window other than `(i0, j0)` that lies
inside the matrix, `true` when the loops run to their end. -/
def iterNbhd {T : Type} (mat : List (List T)) (i0 j0 ri rj : Int) (condition : T → Bool) :
    Bool :=
  (intRange (i0 - ri) (i0 + ri)).all fun i =>
    if i < 0 ∨ i ≥ (mat.length : Int) then true
    else
      (intRange (j0 - rj) (j0 + rj)).all fun j =>
        if i = i0 ∧ j = j0 then true
        else
          match mat[i.toNat]? with
          | none => true
          | some row =>
            if j < 0 ∨ j ≥ (row.length : Int) then true
            else
              match row[j.toNat]? with
              | none => true
              | some x => !condition x

/-- Go `func findPeaks(spectrogram Spectrogram, topN int) []Token` (Strategy A) for a capacity
`topN` that its first statement `make(PriorityQueue, 0, topN)` accepts; the panic of that `make`
on other values of `topN` is part of `GetFingerPrint`, the caller. -/
def findPeaks (spectrogram : Spectrogram) (topN : Nat) : Except Fault (List Token) := do
  let pq ← (List.range spectrogram.length).foldlM (fun pq t =>
    (List.range (spectrogram.getD t []).length).foldlM (fun pq f =>
      let amp := (spectrogram.getD t []).getD f 0
      let isPeak := iterNbhd spectrogram t f 0 100 (fun nbhrAmp => decide (nbhrAmp ≥ amp))
      if isPeak then offer topN pq ⟨t, f, amp⟩ else .ok pq) pq) ([] : PriorityQueue)
  drain pq []

/-- Go `SIZE_FREQ_WINDOWS int = 200`. -/
def SIZE_FREQ_WINDOWS : Nat := 200

/-- Go `SIZE_TIME_WINDOWS int = 10`. -/
def SIZE_TIME_WINDOWS : Nat := 10

/-- The scan of one grid block (lines 164-177): a fresh queue, then every cell `(i, j)` with
`t0 ≤ i < t1` and `f0 ≤ j < f1` is offered to it.  Reading `spectrogram[i][j]` outside the
matrix panics. -/
def scanBlock (spectrogram : Spectrogram) (tokenPerWindow : Nat) (t0 t1 f0 f1 : Nat) :
    Except Fault PriorityQueue :=
  (List.range' t0 (t1 - t0)).foldlM (fun pq i =>
    (List.range' f0 (f1 - f0)).foldlM (fun pq j =>
      match spectrogram[i]? with
      | none => .error .indexOutOfRange
      | some row =>
        match row[j]? with
        | none => .error .indexOutOfRange
        | some amp => offer tokenPerWindow pq ⟨i, j, amp⟩) pq) ([] : PriorityQueue)

/-- The body of the two block loops (lines 160-181) for the block `(tw, fw)`, `bins` being
`len(spectrogram[0])`: scan the block, then drain its queue onto `peaks`. -/
def blockStep (spectrogram : Spectrogram) (tokenPerWindow bins tw fw : Nat)
    (peaks : List Token) : Except Fault (List Token) := do
  let t0 := tw * SIZE_TIME_WINDOWS
  let t1 := min ((tw + 1) * SIZE_TIME_WINDOWS) (spectrogram.length - 1)
  let f0 := fw * SIZE_FREQ_WINDOWS
  let f1 := min ((fw + 1) * SIZE_FREQ_WINDOWS) (bins - 1)
  let pq ← scanBlock spectrogram tokenPerWindow t0 t1 f0 f1
  drain pq peaks

/-- The closure `findPeaks2` of `GetFingerPrint2` (lines 149-186, Strategy B).
`len(spectrogram[0])` panics on an empty spectrogram. -/
def findPeaks2 (spectrogram : Spectrogram) (tokenPerWindow : Nat) : Except Fault (List Token) :=
  match spectrogram[0]? with
  | none => .error .indexOutOfRange
  | some frame0 =>
    (List.range (spectrogram.length / SIZE_TIME_WINDOWS)).foldlM (fun peaks tw =>
      (List.range (frame0.length / SIZE_FREQ_WINDOWS)).foldlM (fun peaks fw =>
        blockStep spectrogram tokenPerWindow frame0.length tw fw peaks) peaks) ([] : List Token)

/-! ## Spectrogram construction (`spectrogram.go`) -/

/-- Go `func complex128ArrToMagArr(arr []complex128) []float64`; the argument is the list of the
magnitudes `cmplx.Abs(c)` of the entries of `arr`. -/
def complex128ArrToMagArr (mags : List ℚ) : List ℚ :=
  let averaging_window_size := 5
  mags.enum.foldl (fun res ic =>
    let bin := ic.1 / averaging_window_size
    let res := res.set bin (res.getD bin 0 + ic.2)
    if bin % averaging_window_size = averaging_window_size - 1 then
      res.set bin (res.getD bin 0 / (averaging_window_size : ℚ))
    else res) (List.replicate (mags.length / averaging_window_size + 1) 0)

/-- The loop `for i := 0; i < len(pcm); i += stepSize` of `chunkAndNormaliseAudio`
(lines 62-65), with `i+binSize` and `i += stepSize` computed on `int`.  The slice expression
`pcm[i:j]` panics unless `0 ≤ i ≤ j`; `j ≤ len(pcm)` holds by construction.  The first argument
bounds the number of iterations. -/
def chunkLoop : Nat → List ℚ → Int → Int → Int → List (List ℚ) → Except Fault (List (List ℚ))
  | 0, _, _, _, _, _ => .error .fuelExhausted
  | fuel + 1, pcm, binSize, stepSize, i, res =>
    if i < (pcm.length : Int) then
      let j := min (addInt i binSize) ((pcm.length : Int) - 1)
      if 0 ≤ i ∧ i ≤ j then
        chunkLoop fuel pcm binSize stepSize (addInt i stepSize)
          (res ++ [(pcm.drop i.toNat).take (j - i).toNat])
      else .error .sliceBounds
    else .ok res

/-- Go `func chunkAndNormaliseAudio(audioBuff audio.Buffer, binSize, overlap int) [][]float64` on
the samples of a single-channel buffer, for which `NumFrames()` is the number of samples.  The
capacity `NumFrames()/(binSize-overlap)` of `make` is computed first: the division panics on a
zero divisor and `make` on a capacity that `makePanics` rejects. -/
def chunkAndNormaliseAudio (pcm : List ℚ) (binSize overlap : Int) :
    Except Fault (List (List ℚ)) :=
  let stepSize := subInt binSize overlap
  if stepSize = 0 then .error .divideByZero
  else if makePanics 24 (divInt (pcm.length : Int) stepSize) then .error .makeSliceCap
  else chunkLoop (pcm.length + 1) pcm binSize stepSize 0 []

/-- Go `func GetSpectrogram(audioBuff audio.Buffer, binSize, overlap int) Spectrogram`.
`fftMag audioBin` stands for the magnitudes of `fft.FFT(float64ArrToComplex128Arr(audioBin))`.
Line 18 computes `(numFrames - overlap + stepSize - 1) / stepSize` on `int` and panics on a
zero `stepSize`; `numChunks` is clamped at zero from below only, so the `make` of line 23
panics on a capacity beyond the limit of `makePanics`. -/
def GetSpectrogram (fftMag : List ℚ → List ℚ) (buff : List ℚ) (binSize overlap : Int) :
    Except Fault Spectrogram :=
  let numFrames : Int := (buff.length : Int)
  let stepSize := subInt binSize overlap
  if stepSize = 0 then .error .divideByZero
  else
    let numChunks := divInt (subInt (addInt (subInt numFrames overlap) stepSize) 1) stepSize
    let numChunks := if numChunks < 0 then 0 else numChunks
    if makePanics 24 numChunks then .error .makeSliceCap
    else do
      let chunks ← chunkAndNormaliseAudio buff binSize overlap
      .ok (chunks.map fun audioBin => complex128ArrToMagArr (fftMag audioBin))

/-! ## Fingerprints (`fingerprint.go`) -/

/-- Go `type Fingerprint struct { Tokens []Token; Hashes map[TokenPairHash]struct{} }`. -/
structure Fingerprint where
  Tokens : List Token
  Hashes : Finset Int

/-- The inner loop of the hashing stage of `GetFingerPrint` (lines 134-140). -/
def hashInner1 (maxTokenTimeDiff : Int) (t1 : Token) : List Token → Finset Int → Finset Int
  | [], hashes => hashes
  | t2 :: rest, hashes =>
    if subInt t2.Time t1.Time > maxTokenTimeDiff then hashes
    else hashInner1 maxTokenTimeDiff t1 rest (insert (ComputeTokenPairHash t1 t2) hashes)

/-- The outer loop of the hashing stage of `GetFingerPrint` (lines 133-141). -/
def hashOuter1 (maxTokenTimeDiff : Int) : List Token → Finset Int → Finset Int
  | [], hashes => hashes
  | t1 :: rest, hashes =>
    hashOuter1 maxTokenTimeDiff rest (hashInner1 maxTokenTimeDiff t1 (t1 :: rest) hashes)

/-- Go `func GetFingerPrint(audioBuff, binSize, overlap, hashTopN, maxTokenTimeDiff) Fingerprint`.
The call `findPeaks(spectrogram, hashTopN)` starts with `make(PriorityQueue, 0, topN)`, which
panics on a negative or oversized `hashTopN`. -/
def GetFingerPrint (fftMag : List ℚ → List ℚ) (buff : List ℚ) (binSize overlap : Int)
    (hashTopN : Int) (maxTokenTimeDiff : Int) : Except Fault Fingerprint := do
  let spectrogram ← GetSpectrogram fftMag buff binSize overlap
  if makePanics 24 hashTopN then .error .makeSliceCap
  else do
    let tokens ← findPeaks spectrogram hashTopN.toNat
    .ok ⟨tokens, hashOuter1 maxTokenTimeDiff tokens ∅⟩

/-- Go `func GetFingerPrint2(audioBuff, binSize, overlap, hashTopN, maxTokenTimeDiff,
tokenPerWindow) Fingerprint`.  Line 155 reads `spectrogram[0]` and then calls `make` with the
capacity `tokenPerWindow*(len(spectrogram[0])/200)*(len(spectrogram)/10)` computed on `int`;
the first block visited calls `make(PriorityQueue, 0, tokenPerWindow)`.  The `fmt.Printf` of
line 193 evaluates `fp.Tokens[:10]`, which panics when the capacity of `fp.Tokens` is below 10:
that capacity is the one of line 155 unless more tokens than that were appended, in which case
it is at least their number. -/
def GetFingerPrint2 (fftMag : List ℚ → List ℚ) (buff : List ℚ) (binSize overlap : Int)
    ( _hashTopN : Int) (maxTokenTimeDiff : Int) (tokenPerWindow : Int) :
    Except Fault Fingerprint := do
  let spectrogram ← GetSpectrogram fftMag buff binSize overlap
  match spectrogram[0]? with
  | none => .error .indexOutOfRange
  | some frame0 =>
    let freqBlocks := frame0.length / SIZE_FREQ_WINDOWS
    let timeBlocks := spectrogram.length / SIZE_TIME_WINDOWS
    let capacity := mulInt (mulInt tokenPerWindow (freqBlocks : Int)) (timeBlocks : Int)
    if makePanics 24 capacity then .error .makeSliceCap
    else if 0 < timeBlocks ∧ 0 < freqBlocks ∧ makePanics 24 tokenPerWindow then
      .error .makeSliceCap
    else do
      let tokens ← findPeaks2 spectrogram tokenPerWindow.toNat
      if capacity < 10 ∧ tokens.length < 10 then .error .sliceBounds
      else .ok ⟨tokens, hashStage2 tokens maxTokenTimeDiff⟩

/-! ## The exact-vote matcher (`cmd/song_recog/main.go`) and the hash index -/

/-- A row of table `songs`. -/
structure Song where
  ID : Int
  Name : String
deriving DecidableEq

/-- The state of the hash index: the rows of `songs` and the rows `(song_id, song_hash)` of
`song_hashes`. -/
structure HashIndex where
  songs : List Song
  song_hashes : List (Int × Int)

/-- Query `GetSongByHash`: `SELECT songs.id, songs.name FROM songs JOIN song_hashes ON
songs.id = song_hashes.song_id WHERE song_hashes.song_hash = ?`, one result row per matching
pair of rows. -/
def GetSongByHash (db : HashIndex) (songHash : Int) : List Song :=
  db.song_hashes.flatMap fun r =>
    if r.2 = songHash then db.songs.filter (fun s => decide (s.ID = r.1)) else []

/-- Query `GetSongByID`: `SELECT id, name FROM songs WHERE id = ?`; `none` is the error of a
query without a row. -/
def GetSongByID (db : HashIndex) (id : Int) : Option Song :=
  db.songs.find? fun s => decide (s.ID = id)

/-- The update `matchCounts[id]++` on a map kept as a list of entries. -/
def incrCount : List (Int × Nat) → Int → List (Int × Nat)
  | [], id => [(id, 1)]
  | (k, c) :: rest, id => if k = id then (k, c + 1) :: rest else (k, c) :: incrCount rest id

/-- The assignment `res[name] = v` on a map kept as a list of entries. -/
def setScore : List (String × ℚ) → String → ℚ → List (String × ℚ)
  | [], name, v => [(name, v)]
  | (k, w) :: rest, name, v =>
    if k = name then (k, v) :: rest else (k, w) :: setScore rest name v

/-- Lines 170-183 of `findMatchingSong`: the votes per song id; `hashes` lists the keys of
`fingerprint.Hashes` in the order in which `range` visits them. -/
def countMatches (db : HashIndex) (hashes : List Int) : List (Int × Nat) :=
  hashes.foldl (fun matchCounts hash =>
    (GetSongByHash db hash).foldl (fun mc song => incrCount mc song.ID) matchCounts) []

/-- Lines 185-194 of `findMatchingSong`: the map `res` and `total` after the second loop,
which visits the entries of `matchCounts` in list order. -/
def collectScores (db : HashIndex) (matchCounts : List (Int × Nat)) :
    List (String × ℚ) × Nat :=
  matchCounts.foldl (fun (acc : List (String × ℚ) × Nat) entry =>
    match GetSongByID db entry.1 with
    | none => acc
    | some song => (setScore acc.1 song.Name (entry.2 : ℚ), acc.2 + entry.2)) ([], 0)

/-- Go `func findMatchingSong(ctx, queries, fingerprint) (map[string]float32, error)` over an
index whose queries succeed; scores are exact rationals. -/
def findMatchingSong (db : HashIndex) (hashes : List Int) : List (String × ℚ) :=
  let rt := collectScores db (countMatches db hashes)
  rt.1.map fun entry => (entry.1, entry.2 / (rt.2 : ℚ))

/-- The `total` of `findMatchingSong`: the number of votes counted. -/
def totalVotes (db : HashIndex) (hashes : List Int) : Nat :=
  (collectScores db (countMatches db hashes)).2

/-! ## Notions used to state the properties -/

/-- The amplitude stored at position `k` of a queue. -/
def ampAt (pq : PriorityQueue) (k : Nat) : ℚ := (pq.getD k default).Amp

/-- The first `n` entries of `pq` are in min-heap order with respect to `Less`: no entry has a
smaller amplitude than its parent at position `(k - 1) / 2`. -/
def IsHeapUpTo (pq : PriorityQueue) (n : Nat) : Prop :=
  ∀ k, 0 < k → k < n → ampAt pq ((k - 1) / 2) ≤ ampAt pq k

/-- The whole queue is in min-heap order. -/
def IsHeap (pq : PriorityQueue) : Prop := IsHeapUpTo pq pq.length

/-- The spectrogram cell `spectrogram[t][f]`, when `(t, f)` lies inside the matrix. -/
def cellAt (sg : Spectrogram) (t f : Nat) : Option ℚ := (sg[t]?).bind fun row => row[f]?

/-- Cell `(t, f)` holds `amp` and is a candidate peak: every other cell of frame `t` whose
frequency index is within 100 of `f` has a strictly smaller amplitude. -/
def IsCandidatePeak (sg : Spectrogram) (t f : Nat) (amp : ℚ) : Prop :=
  cellAt sg t f = some amp ∧
    ∀ (f' : Nat) (a' : ℚ), f' ≠ f → f' ≤ f + 100 → f ≤ f' + 100 →
      cellAt sg t f' = some a' → a' < amp

/-- The tokens of the cells that pass the neighbourhood test of `findPeaks` (line 91), in the
order in which the two loops visit them. -/
def candidatePeaks (sg : Spectrogram) : List Token :=
  (List.range sg.length).flatMap fun (t : Nat) =>
    ((List.range (sg.getD t []).length).filter fun (f : Nat) =>
      iterNbhd sg t f 0 100 (fun nbhrAmp => decide (nbhrAmp ≥ (sg.getD t []).getD f 0))).map
      fun (f : Nat) => (⟨(t : Int), (f : Int), (sg.getD t []).getD f 0⟩ : Token)

/-- The token's `(Time, Freq)` lies in the index range of grid block `(tw, fw)`: `Time` in
`[10 tw, 10 tw + 10)` and `Freq` in `[200 fw, 200 fw + 200)`. -/
def inBlock (tw fw : Nat) (tok : Token) : Bool :=
  decide (((tw * SIZE_TIME_WINDOWS : Nat) : Int) ≤ tok.Time ∧
    tok.Time < (((tw + 1) * SIZE_TIME_WINDOWS : Nat) : Int) ∧
    ((fw * SIZE_FREQ_WINDOWS : Nat) : Int) ≤ tok.Freq ∧
    tok.Freq < (((fw + 1) * SIZE_FREQ_WINDOWS : Nat) : Int))

/-- The tokens of the cells `(i, j)` with `t0 ≤ i < t1` and `f0 ≤ j < f1`, in the order in which
the loops of lines 167-168 visit them. -/
def blockCells (sg : Spectrogram) (t0 t1 f0 f1 : Nat) : List Token :=
  (List.range' t0 (t1 - t0)).flatMap fun (i : Nat) =>
    (List.range' f0 (f1 - f0)).map fun (j : Nat) =>
      (⟨(i : Int), (j : Int), (sg.getD i []).getD j 0⟩ : Token)

/-- The blocks `(tw, fw)` visited by the loops of lines 159 and 161, in loop order. -/
def gridBlocks (frames bins : Nat) : List (Nat × Nat) :=
  (List.range (frames / SIZE_TIME_WINDOWS)).flatMap fun (tw : Nat) =>
    (List.range (bins / SIZE_FREQ_WINDOWS)).map fun (fw : Nat) => (tw, fw)

/-- A spectrogram of 10 frames by 200 bins, zero in frames 0 to 8 and one in frame 9. -/
def gridExample : Spectrogram := List.replicate 9 (List.replicate 200 0) ++ [List.replicate 200 1]

/-- The slice `pcm[i:j]` for `j = min(i+binSize, len(pcm)-1)`, the window appended on line 64. -/
def windowAt (pcm : List ℚ) (binSize i : Int) : List ℚ :=
  (pcm.drop i.toNat).take (min (addInt i binSize) ((pcm.length : Int) - 1) - i).toNat

/-- An index with two songs of the same name, each stored with the hash 5. -/
def duplicateNameIndex : HashIndex :=
  ⟨[⟨1, "A"⟩, ⟨2, "A"⟩], [(1, 5), (2, 5)]⟩

/-- The sum of the magnitudes `m[i]` with `5k ≤ i < min(5k + 5, L)`, the `k`-th group of five
consecutive bins. -/
def groupSum (mags : List ℚ) (k : Nat) : ℚ :=
  ((mags.enum.filter fun (p : Nat × ℚ) => decide (5 * k ≤ p.1 ∧ p.1 < 5 * k + 5)).map
    Prod.snd).sum

/-- The body of the loop of `complex128ArrToMagArr` (lines 47-52). -/
def magStep (res : List ℚ) (ic : Nat × ℚ) : List ℚ :=
  if ic.1 / 5 % 5 = 5 - 1 then
    (res.set (ic.1 / 5) (res.getD (ic.1 / 5) 0 + ic.2)).set (ic.1 / 5)
      ((res.set (ic.1 / 5) (res.getD (ic.1 / 5) 0 + ic.2)).getD (ic.1 / 5) 0 / ((5 : Nat) : ℚ))
  else res.set (ic.1 / 5) (res.getD (ic.1 / 5) 0 + ic.2)

/-! ## Lemmas: machine integers -/

theorem wrap64_of_range {x : Int} (h1 : -(2 ^ 63) ≤ x) (h2 : x < 2 ^ 63) : wrap64 x = x := by
  unfold wrap64
  rw [Int.emod_eq_of_lt (by omega) (by omega)]
  omega

/-- Wrapping an intermediate product does not change the wrapped final product. -/
theorem wrap64_mul_left (x c : Int) : wrap64 (wrap64 x * c) = wrap64 (x * c) := by
  have hx : wrap64 x = x + 2 ^ 64 * (-((x + 2 ^ 63) / 2 ^ 64)) := by
    unfold wrap64
    have := Int.emod_add_ediv (x + 2 ^ 63) (2 ^ 64)
    omega
  rw [hx]
  unfold wrap64
  have e : (x + 2 ^ 64 * (-((x + 2 ^ 63) / 2 ^ 64))) * c + 2 ^ 63
      = (x * c + 2 ^ 63) + 2 ^ 64 * (-((x + 2 ^ 63) / 2 ^ 64) * c) := by ring
  rw [e, Int.add_mul_emod_self_left]

theorem subInt_of_nonneg {a b : Int} (ha : 0 ≤ a ∧ a < 2 ^ 63) (hb : 0 ≤ b ∧ b < 2 ^ 63) :
    subInt a b = a - b := by
  unfold subInt
  exact wrap64_of_range (by omega) (by omega)

theorem absInt_of_range {x : Int} (h1 : -(2 ^ 63) < x) (h2 : x < 2 ^ 63) : absInt x = |x| := by
  unfold absInt negInt
  split
  · next h => rw [wrap64_of_range (by omega) (by omega), abs_of_neg h]
  · next h => rw [abs_of_nonneg (by omega)]

theorem absInt_subInt_of_nonneg {a b : Int} (ha : 0 ≤ a ∧ a < 2 ^ 63) (hb : 0 ≤ b ∧ b < 2 ^ 63) :
    absInt (subInt a b) = |a - b| := by
  rw [subInt_of_nonneg ha hb]
  exact absInt_of_range (by omega) (by omega)

/-- The wrap of any integer is a machine integer. -/
theorem wrap64_range (x : Int) : -(2 ^ 63) ≤ wrap64 x ∧ wrap64 x < 2 ^ 63 := by
  unfold wrap64
  omega

/-- Go `a + b` is the sum when the sum is a machine integer. -/
theorem addInt_of_range {a b : Int} (h1 : -(2 ^ 63) ≤ a + b) (h2 : a + b < 2 ^ 63) :
    addInt a b = a + b := wrap64_of_range h1 h2

/-- Go `a - b` is the difference when the difference is a machine integer. -/
theorem subInt_of_range {a b : Int} (h1 : -(2 ^ 63) ≤ a - b) (h2 : a - b < 2 ^ 63) :
    subInt a b = a - b := wrap64_of_range h1 h2

/-- Go `a - b` of two distinct machine integers is not zero. -/
theorem subInt_ne_zero {a b : Int} (ha : -(2 ^ 63) ≤ a ∧ a < 2 ^ 63)
    (hb : -(2 ^ 63) ≤ b ∧ b < 2 ^ 63) (hne : a ≠ b) : subInt a b ≠ 0 := by
  unfold subInt wrap64
  omega

/-- Go `a - a` is zero. -/
theorem subInt_self (a : Int) : subInt a a = 0 := by
  unfold subInt wrap64
  simp

/-- The truncated quotient by a positive divisor lies between zero and the dividend. -/
theorem tdiv_bounds (a b : Int) (hb : 1 ≤ b) :
    (0 ≤ a → Int.tdiv a b = a / b ∧ 0 ≤ a / b ∧ a / b ≤ a) ∧
    (a < 0 → a ≤ Int.tdiv a b ∧ Int.tdiv a b ≤ 0) := by
  constructor
  · intro ha
    exact ⟨Int.tdiv_eq_ediv ha (by omega), Int.ediv_nonneg ha (by omega), Int.ediv_le_self b ha⟩
  · intro ha
    have h1 : Int.tdiv a b = -((-a) / b) := by
      have := Int.neg_tdiv (-a) b
      rw [neg_neg] at this
      rw [this, Int.tdiv_eq_ediv (by omega) (by omega)]
    have h2 : 0 ≤ (-a) / b := Int.ediv_nonneg (by omega) (by omega)
    have h3 : (-a) / b ≤ -a := Int.ediv_le_self b (by omega)
    omega

/-! ## Lemmas: the hashing stage -/

theorem hashInner2_mono (m : Int) (t1 : Token) (l : List Token) (acc : Finset Int) :
    acc ⊆ hashInner2 m t1 l acc := by
  induction l generalizing acc with
  | nil => simp [hashInner2]
  | cons t2 rest ih =>
    unfold hashInner2
    split
    · exact Finset.Subset.refl _
    · split
      · exact ih acc
      · exact (Finset.subset_insert _ _).trans (ih _)

theorem hashOuter2_mono (m : Int) (l : List Token) (acc : Finset Int) :
    acc ⊆ hashOuter2 m l acc := by
  induction l generalizing acc with
  | nil => simp [hashOuter2]
  | cons t1 rest ih =>
    unfold hashOuter2
    exact (hashInner2_mono m t1 _ acc).trans (ih _)

/-- Every value added by the inner loop comes from a visited `t2` that passed both guards. -/
theorem hashInner2_sound (m : Int) (t1 : Token) (l : List Token) (acc : Finset Int) (h : Int)
    (hh : h ∈ hashInner2 m t1 l acc) :
    h ∈ acc ∨ ∃ (k : Nat) (t2 : Token), l[k]? = some t2 ∧ t1.Freq ≠ t2.Freq ∧
      absInt (subInt t2.Time t1.Time) ≤ m ∧ h = ComputeTokenPairHash t1 t2 := by
  induction l generalizing acc with
  | nil => left; simpa [hashInner2] using hh
  | cons t2 rest ih =>
    unfold hashInner2 at hh
    split at hh
    · exact Or.inl hh
    · next hgap =>
      split at hh
      · rcases ih acc hh with h1 | ⟨k, t, hk, hf, hg, he⟩
        · exact Or.inl h1
        · exact Or.inr ⟨k + 1, t, by simpa using hk, hf, hg, he⟩
      · next hfreq =>
        rcases ih _ hh with h1 | ⟨k, t, hk, hf, hg, he⟩
        · rcases Finset.mem_insert.mp h1 with h2 | h2
          · exact Or.inr ⟨0, t2, by simp, hfreq, by omega, h2⟩
          · exact Or.inl h2
        · exact Or.inr ⟨k + 1, t, by simpa using hk, hf, hg, he⟩

theorem hashOuter2_sound (m : Int) (l : List Token) (acc : Finset Int) (h : Int)
    (hh : h ∈ hashOuter2 m l acc) :
    h ∈ acc ∨ ∃ (i j : Nat) (t1 t2 : Token), i ≤ j ∧ l[i]? = some t1 ∧ l[j]? = some t2 ∧
      t1.Freq ≠ t2.Freq ∧ absInt (subInt t2.Time t1.Time) ≤ m ∧ h = ComputeTokenPairHash t1 t2 := by
  induction l generalizing acc with
  | nil => left; simpa [hashOuter2] using hh
  | cons t1 rest ih =>
    unfold hashOuter2 at hh
    rcases ih _ hh with h1 | ⟨i, j, a, b, hij, hi, hj, hf, hg, he⟩
    · rcases hashInner2_sound m t1 _ acc h h1 with h2 | ⟨k, t2, hk, hf, hg, he⟩
      · exact Or.inl h2
      · exact Or.inr ⟨0, k, t1, t2, Nat.zero_le _, by simp, hk, hf, hg, he⟩
    · exact Or.inr ⟨i + 1, j + 1, a, b, by omega, by simpa using hi, by simpa using hj,
        hf, hg, he⟩

/-- On a time-ordered suffix the inner loop's `break` skips no qualifying `t2`. -/
theorem hashInner2_complete (m : Int) (t1 : Token) (ht1 : 0 ≤ t1.Time ∧ t1.Time < 2 ^ 63)
    (l : List Token) (hl : ∀ t ∈ l, 0 ≤ t.Time ∧ t.Time < 2 ^ 63)
    (hge : ∀ t ∈ l, t1.Time ≤ t.Time)
    (hs : l.Pairwise (fun a b => a.Time ≤ b.Time)) (acc : Finset Int)
    (k : Nat) (t2 : Token) (hk : l[k]? = some t2) (hf : t1.Freq ≠ t2.Freq)
    (hg : |t2.Time - t1.Time| ≤ m) :
    ComputeTokenPairHash t1 t2 ∈ hashInner2 m t1 l acc := by
  induction l generalizing acc k with
  | nil => simp at hk
  | cons a rest ih =>
    have ha := hl a (List.mem_cons_self _ _)
    have hat := hge a (List.mem_cons_self _ _)
    have hmem : t2 ∈ a :: rest := List.getElem?_mem hk
    have h2v := hl t2 hmem
    have h2t := hge t2 hmem
    have hat2 : a.Time ≤ t2.Time := by
      rcases List.mem_cons.mp hmem with h | h
      · rw [h]
      · exact List.rel_of_pairwise_cons hs h
    unfold hashInner2
    rw [absInt_subInt_of_nonneg ha ht1]
    rw [abs_of_nonneg (by omega)] at hg
    rw [abs_of_nonneg (by omega)]
    split
    · omega
    · cases k with
      | zero =>
        simp at hk
        subst hk
        rw [if_neg hf]
        exact hashInner2_mono m t1 rest _ (Finset.mem_insert_self _ _)
      | succ k =>
        have hk2 : rest[k]? = some t2 := by simpa using hk
        have hrest := fun t ht => hl t (List.mem_cons_of_mem _ ht)
        have hge2 := fun t ht => hge t (List.mem_cons_of_mem _ ht)
        split
        · exact ih hrest hge2 (List.Pairwise.of_cons hs) acc k hk2
        · exact ih hrest hge2 (List.Pairwise.of_cons hs) _ k hk2

theorem hashOuter2_complete (m : Int) (l : List Token)
    (hl : ∀ t ∈ l, 0 ≤ t.Time ∧ t.Time < 2 ^ 63)
    (hs : l.Pairwise (fun a b => a.Time ≤ b.Time)) (acc : Finset Int)
    (i j : Nat) (t1 t2 : Token) (hij : i ≤ j) (hi : l[i]? = some t1) (hj : l[j]? = some t2)
    (hf : t1.Freq ≠ t2.Freq) (hg : |t2.Time - t1.Time| ≤ m) :
    ComputeTokenPairHash t1 t2 ∈ hashOuter2 m l acc := by
  induction l generalizing acc i j with
  | nil => simp at hi
  | cons a rest ih =>
    unfold hashOuter2
    cases i with
    | zero =>
      simp at hi
      subst hi
      apply hashOuter2_mono
      refine hashInner2_complete m a (hl a (List.mem_cons_self _ _)) _ hl ?_ hs acc j t2 hj hf hg
      intro t ht
      rcases List.mem_cons.mp ht with h | h
      · rw [h]
      · exact List.rel_of_pairwise_cons hs h
    | succ i =>
      cases j with
      | zero => omega
      | succ j =>
        exact ih (fun t ht => hl t (List.mem_cons_of_mem _ ht)) (List.Pairwise.of_cons hs) _ i j
          (by omega) (by simpa using hi) (by simpa using hj)

/-- When no intermediate value leaves the range of `int`, the pair hash is the plain product
`t1.Freq * |t1.Freq - t2.Freq| * |t2.Time - t1.Time|`. -/
theorem ComputeTokenPairHash_eq_of_range (t1 t2 : Token)
    (hT1 : 0 ≤ t1.Time ∧ t1.Time < 2 ^ 63) (hT2 : 0 ≤ t2.Time ∧ t2.Time < 2 ^ 63)
    (hF1 : 0 ≤ t1.Freq ∧ t1.Freq < 2 ^ 63) (hF2 : 0 ≤ t2.Freq ∧ t2.Freq < 2 ^ 63)
    (hp : t1.Freq * |t1.Freq - t2.Freq| * |t2.Time - t1.Time| < 2 ^ 63) :
    ComputeTokenPairHash t1 t2 = t1.Freq * |t1.Freq - t2.Freq| * |t2.Time - t1.Time| := by
  unfold ComputeTokenPairHash mulInt
  rw [absInt_subInt_of_nonneg hF1 hF2, absInt_subInt_of_nonneg hT2 hT1, wrap64_mul_left]
  have h1 : 0 ≤ t1.Freq * |t1.Freq - t2.Freq| := mul_nonneg hF1.1 (abs_nonneg _)
  have h2 : 0 ≤ t1.Freq * |t1.Freq - t2.Freq| * |t2.Time - t1.Time| :=
    mul_nonneg h1 (abs_nonneg _)
  exact wrap64_of_range (by omega) hp

/-! ## Lemmas: `container/heap` -/

theorem Swap_length (pq : PriorityQueue) (i j : Nat) :
    (PriorityQueue.Swap pq i j).length = pq.length := by
  simp [PriorityQueue.Swap]

/-- Swapping two entries permutes the queue. -/
theorem Swap_perm (pq : PriorityQueue) (i j : Nat) (hi : i < pq.length) (hj : j < pq.length) :
    (PriorityQueue.Swap pq i j).Perm pq := by
  unfold PriorityQueue.Swap
  rw [List.getD_eq_getElem _ _ hi, List.getD_eq_getElem _ _ hj]
  by_cases hij : i = j
  · subst hij
    have e : (pq.set i pq[i]).set i pq[i] = pq := by
      apply List.ext_getElem
      · simp
      · intro n h1 h2
        simp only [List.getElem_set]
        split
        · next h => subst h; rfl
        · rfl
    rw [e]
  · rw [List.perm_iff_count]
    intro b
    rw [List.count_set _ _ _ _ (by simpa using hj), List.count_set _ _ _ _ hi]
    have hj2 : j < (pq.set i pq[j]).length := by simpa using hj
    have e : (pq.set i pq[j])[j] = pq[j] := by
      rw [List.getElem_set]; simp [hij]
    rw [e]
    have h1 : (if (pq[i] == b) = true then 1 else 0) ≤ List.count b pq := by
      split
      · next h =>
        have : pq[i] = b := by simpa using h
        rw [← this]
        exact List.count_pos_iff.mpr (List.getElem_mem _)
      · omega
    omega

theorem Swap_getD (pq : PriorityQueue) (i j k : Nat) (hi : i < pq.length) (hj : j < pq.length) :
    (PriorityQueue.Swap pq i j).getD k default =
      if k = j then pq.getD i default else if k = i then pq.getD j default
      else pq.getD k default := by
  unfold PriorityQueue.Swap
  simp only [List.getD_eq_getElem?_getD, List.getElem?_set, List.length_set]
  by_cases h1 : k = j
  · subst h1; simp [hj]
  · by_cases h2 : k = i
    · subst h2
      simp [hi, h1, Ne.symm h1]
    · simp [h1, h2, Ne.symm h1, Ne.symm h2]

theorem Less_iff (pq : PriorityQueue) (i j : Nat) :
    PriorityQueue.Less pq i j = true ↔ ampAt pq i < ampAt pq j := by
  simp [PriorityQueue.Less, ampAt]

theorem Swap_ampAt (pq : PriorityQueue) (i j k : Nat) (hi : i < pq.length) (hj : j < pq.length) :
    ampAt (PriorityQueue.Swap pq i j) k =
      if k = j then ampAt pq i else if k = i then ampAt pq j else ampAt pq k := by
  unfold ampAt
  rw [Swap_getD pq i j k hi hj]
  split
  · rfl
  · split <;> rfl

theorem heapUpLoop_length (fuel : Nat) (pq : PriorityQueue) (j : Nat) :
    (heapUpLoop fuel pq j).length = pq.length := by
  induction fuel generalizing pq j with
  | zero => rfl
  | succ fuel ih =>
    unfold heapUpLoop
    simp only
    split
    · rfl
    · rw [ih, Swap_length]

theorem heapUpLoop_perm (fuel : Nat) (pq : PriorityQueue) (j : Nat) (hj : j < pq.length) :
    (heapUpLoop fuel pq j).Perm pq := by
  induction fuel generalizing pq j with
  | zero => exact List.Perm.refl _
  | succ fuel ih =>
    unfold heapUpLoop
    simp only
    split
    · exact List.Perm.refl _
    · have hi : (j - 1) / 2 < pq.length := by omega
      exact (ih _ _ (by rw [Swap_length]; exact hi)).trans (Swap_perm pq _ _ hi hj)

/-- Sift-up restores the heap order when position `j` is the only one that may be smaller than
its parent. -/
theorem heapUpLoop_isHeap (fuel : Nat) (pq : PriorityQueue) (j : Nat) (hfuel : j < fuel)
    (hj : j < pq.length)
    (h1 : ∀ k, 0 < k → k < pq.length → k ≠ j → ampAt pq ((k - 1) / 2) ≤ ampAt pq k)
    (h2 : ∀ k, 0 < k → k < pq.length → (k - 1) / 2 = j → 0 < j →
      ampAt pq ((j - 1) / 2) ≤ ampAt pq k) :
    IsHeapUpTo (heapUpLoop fuel pq j) pq.length := by
  induction fuel generalizing pq j with
  | zero => omega
  | succ fuel ih =>
    unfold heapUpLoop
    simp only
    split
    · next hbreak =>
      intro k hk0 hkn
      by_cases hkj : k = j
      · subst hkj
        rcases hbreak with h | h
        · omega
        · rw [Less_iff] at h
          exact not_lt.mp h
      · exact h1 k hk0 hkn hkj
    · next hcont =>
      have hne : (j - 1) / 2 ≠ j := fun h => hcont (Or.inl h)
      have hless : ampAt pq j < ampAt pq ((j - 1) / 2) := by
        by_contra h
        exact hcont (Or.inr (by rw [Less_iff]; exact h))
      have hj0 : 0 < j := by omega
      have hi : (j - 1) / 2 < pq.length := by omega
      have hlen := Swap_length pq ((j - 1) / 2) j
      have key := ih (PriorityQueue.Swap pq ((j - 1) / 2) j) ((j - 1) / 2) (by omega)
        (by rw [hlen]; exact hi) ?_ ?_
      · rw [hlen] at key; exact key
      · intro k hk0 hkn hki
        rw [hlen] at hkn
        rw [Swap_ampAt pq _ _ _ hi hj, Swap_ampAt pq _ _ _ hi hj]
        by_cases hkj : k = j
        · subst hkj
          simp only [if_true, if_neg hne]
          exact le_of_lt hless
        · rw [if_neg hkj, if_neg hki]
          by_cases hp1 : (k - 1) / 2 = j
          · rw [if_pos hp1]
            exact h2 k hk0 hkn hp1 hj0
          · rw [if_neg hp1]
            by_cases hp2 : (k - 1) / 2 = (j - 1) / 2
            · rw [if_pos hp2]
              have := h1 k hk0 hkn hkj
              rw [hp2] at this
              exact le_trans (le_of_lt hless) this
            · rw [if_neg hp2]
              exact h1 k hk0 hkn hkj
      · intro k hk0 hkn hpk hi0
        rw [hlen] at hkn
        rw [Swap_ampAt pq _ _ _ hi hj, Swap_ampAt pq _ _ _ hi hj]
        have hpp1 : ((j - 1) / 2 - 1) / 2 ≠ j := by omega
        have hpp2 : ((j - 1) / 2 - 1) / 2 ≠ (j - 1) / 2 := by omega
        rw [if_neg hpp1, if_neg hpp2]
        have hki : k ≠ (j - 1) / 2 := by omega
        have hgp := h1 ((j - 1) / 2) hi0 hi hne
        by_cases hkj : k = j
        · rw [if_pos hkj]; exact hgp
        · rw [if_neg hkj, if_neg hki]
          have := h1 k hk0 hkn hkj
          rw [hpk] at this
          exact le_trans hgp this

theorem heapDownChild_lt (pq : PriorityQueue) (j1 n : Nat) (h : j1 < n) :
    heapDownChild pq j1 n < n := by
  unfold heapDownChild
  split
  · next h => exact h.1
  · exact h

theorem heapDownChild_cases (pq : PriorityQueue) (j1 n : Nat) :
    heapDownChild pq j1 n = j1 ∨ heapDownChild pq j1 n = j1 + 1 := by
  unfold heapDownChild
  split
  · right; rfl
  · left; rfl

theorem heapDownChild_min (pq : PriorityQueue) (j1 n k : Nat) (hkn : k < n)
    (hk : k = j1 ∨ k = j1 + 1) : ampAt pq (heapDownChild pq j1 n) ≤ ampAt pq k := by
  unfold heapDownChild
  split
  · next h =>
    have := (Less_iff pq _ _).mp h.2
    rcases hk with hk | hk
    · subst hk; exact le_of_lt this
    · subst hk; exact le_refl _
  · next h =>
    rcases hk with hk | hk
    · subst hk; exact le_refl _
    · subst hk
      have h3 : ¬ PriorityQueue.Less pq (j1 + 1) j1 = true := fun h4 => h ⟨hkn, h4⟩
      rw [Less_iff] at h3
      exact not_lt.mp h3

theorem heapDownLoop_length (fuel : Nat) (pq : PriorityQueue) (i n : Nat) :
    (heapDownLoop fuel pq i n).length = pq.length := by
  induction fuel generalizing pq i with
  | zero => rfl
  | succ fuel ih =>
    unfold heapDownLoop
    simp only
    split
    · rfl
    · split
      · rfl
      · rw [ih, Swap_length]

theorem heapDownLoop_perm (fuel : Nat) (pq : PriorityQueue) (i n : Nat) (hn : n ≤ pq.length) :
    (heapDownLoop fuel pq i n).Perm pq := by
  induction fuel generalizing pq i with
  | zero => exact List.Perm.refl _
  | succ fuel ih =>
    unfold heapDownLoop
    simp only
    split
    · exact List.Perm.refl _
    · next hj1 =>
      split
      · exact List.Perm.refl _
      · have hjn := heapDownChild_lt pq (2 * i + 1) n (by omega)
        exact (ih _ _ (by rw [Swap_length]; exact hn)).trans
          (Swap_perm pq _ _ (by omega) (by omega))

/-- Go `down(h, i, n)` leaves the entries at positions `n` and above where they are. -/
theorem heapDownLoop_getD_ge (fuel : Nat) (pq : PriorityQueue) (i n : Nat) (hn : n ≤ pq.length)
    (k : Nat) (hk : n ≤ k) :
    (heapDownLoop fuel pq i n).getD k default = pq.getD k default := by
  induction fuel generalizing pq i with
  | zero => rfl
  | succ fuel ih =>
    unfold heapDownLoop
    simp only
    split
    · rfl
    · next hj1 =>
      split
      · rfl
      · have hjn := heapDownChild_lt pq (2 * i + 1) n (by omega)
        rw [ih _ _ (by rw [Swap_length]; exact hn), Swap_getD pq _ _ _ (by omega) (by omega)]
        rw [if_neg (by omega), if_neg (by omega)]

/-- Sift-down restores the heap order on the first `n` entries when position `i` is the only
one that may be larger than a child. -/
theorem heapDownLoop_isHeap (fuel : Nat) (pq : PriorityQueue) (i n : Nat) (hn : n ≤ pq.length)
    (hfuel : n ≤ i + fuel)
    (h1 : ∀ k, 0 < k → k < n → (k - 1) / 2 ≠ i → ampAt pq ((k - 1) / 2) ≤ ampAt pq k)
    (h2 : ∀ k, 0 < k → k < n → (k - 1) / 2 = i → 0 < i →
      ampAt pq ((i - 1) / 2) ≤ ampAt pq k) :
    IsHeapUpTo (heapDownLoop fuel pq i n) n := by
  induction fuel generalizing pq i with
  | zero =>
    intro k hk0 hkn
    exact h1 k hk0 hkn (by omega)
  | succ fuel ih =>
    unfold heapDownLoop
    simp only
    split
    · intro k hk0 hkn
      exact h1 k hk0 hkn (by omega)
    · next hj1 =>
      have hj1n : 2 * i + 1 < n := by omega
      have hjn := heapDownChild_lt pq (2 * i + 1) n hj1n
      have hjc := heapDownChild_cases pq (2 * i + 1) n
      have hmin := heapDownChild_min pq (2 * i + 1) n
      generalize heapDownChild pq (2 * i + 1) n = j at hjn hjc hmin
      split
      · next hbreak =>
        rw [Less_iff] at hbreak
        have hij : ampAt pq i ≤ ampAt pq j := not_lt.mp hbreak
        intro k hk0 hkn
        by_cases hp : (k - 1) / 2 = i
        · rw [hp]
          exact le_trans hij (hmin k hkn (by omega))
        · exact h1 k hk0 hkn hp
      · next hcont =>
        have hless : ampAt pq j < ampAt pq i := by
          by_contra h
          exact hcont (by rw [Less_iff]; exact h)
        have hi : i < pq.length := by omega
        have hj : j < pq.length := by omega
        have hlen := Swap_length pq i j
        have hpj : (j - 1) / 2 = i := by omega
        apply ih (PriorityQueue.Swap pq i j) j (by rw [hlen]; exact hn) (by omega)
        · intro k hk0 hkn hpk
          rw [Swap_ampAt pq _ _ _ hi hj, Swap_ampAt pq _ _ _ hi hj]
          rw [if_neg hpk]
          by_cases hkj : k = j
          · rw [if_pos hkj]
            subst hkj
            rw [if_pos hpj]
            exact le_of_lt hless
          · rw [if_neg hkj]
            by_cases hki : k = i
            · rw [if_pos hki]
              subst hki
              have hpi : (k - 1) / 2 ≠ k := by omega
              rw [if_neg hpi]
              exact h2 j (by omega) hjn hpj hk0
            · rw [if_neg hki]
              by_cases hp : (k - 1) / 2 = i
              · rw [if_pos hp]
                exact hmin k hkn (by omega)
              · rw [if_neg hp]
                exact h1 k hk0 hkn hp
        · intro k hk0 hkn hpk hj0
          rw [Swap_ampAt pq _ _ _ hi hj, Swap_ampAt pq _ _ _ hi hj]
          rw [hpj]
          have hij : i ≠ j := by omega
          rw [if_neg hij, if_pos rfl]
          rw [if_neg (by omega), if_neg (by omega)]
          have := h1 k hk0 hkn (by omega)
          rw [hpk] at this
          exact this

theorem ampAt_append_left (pq : PriorityQueue) (x : Token) (k : Nat) (hk : k < pq.length) :
    ampAt (pq ++ [x]) k = ampAt pq k := by
  unfold ampAt
  rw [List.getD_append _ _ _ _ hk]

theorem ampAt_take (pq : PriorityQueue) (n k : Nat) (hk : k < n) :
    ampAt (pq.take n) k = ampAt pq k := by
  unfold ampAt
  simp [List.getD_eq_getElem?_getD, List.getElem?_take, hk]

theorem IsHeapUpTo_root_le (pq : PriorityQueue) (n : Nat) (h : IsHeapUpTo pq n) (k : Nat)
    (hk : k < n) : ampAt pq 0 ≤ ampAt pq k := by
  induction k using Nat.strong_induction_on with
  | _ k ih =>
    by_cases hk0 : k = 0
    · subst hk0; exact le_refl _
    · exact le_trans (ih ((k - 1) / 2) (by omega) (by omega)) (h k (by omega) hk)

theorem heapPush_length (pq : PriorityQueue) (x : Token) :
    (heapPush pq x).length = pq.length + 1 := by
  unfold heapPush heapUp
  rw [heapUpLoop_length]
  simp

theorem heapPush_perm (pq : PriorityQueue) (x : Token) : (heapPush pq x).Perm (x :: pq) := by
  unfold heapPush heapUp
  refine (heapUpLoop_perm _ _ _ (by simp)).trans ?_
  exact List.perm_append_singleton x pq

theorem heapPush_isHeap (pq : PriorityQueue) (x : Token) (h : IsHeap pq) :
    IsHeap (heapPush pq x) := by
  unfold IsHeap
  rw [heapPush_length]
  have hlen : (pq ++ [x]).length = pq.length + 1 := by simp
  have key := heapUpLoop_isHeap ((pq ++ [x]).length - 1 + 1) (pq ++ [x]) ((pq ++ [x]).length - 1)
    (by omega) (by omega) ?_ ?_
  · unfold heapPush heapUp
    rw [← hlen]
    exact key
  · intro k hk0 hkn hkj
    rw [hlen] at hkn hkj
    rw [ampAt_append_left pq x _ (by omega), ampAt_append_left pq x _ (by omega)]
    exact h k hk0 (by omega)
  · intro k hk0 hkn hpk hj0
    omega

/-- On a non-empty queue `heap.Pop` returns the root and leaves a permutation of the other
tokens, in heap order if the queue was. -/
theorem heapPop_spec (pq : PriorityQueue) (hne : 0 < pq.length) :
    ∃ pq1 : PriorityQueue, heapPop pq = .ok (pq.getD 0 default, pq1) ∧
      pq1.length + 1 = pq.length ∧ (pq.getD 0 default :: pq1).Perm pq ∧
      (IsHeap pq → IsHeap pq1) := by
  have hlen1 : (PriorityQueue.Swap pq 0 (pq.length - 1)).length = pq.length := Swap_length _ _ _
  have hlen2 : (heapDown (PriorityQueue.Swap pq 0 (pq.length - 1)) 0 (pq.length - 1)).length
      = pq.length := by
    unfold heapDown; rw [heapDownLoop_length, hlen1]
  have hlast : (heapDown (PriorityQueue.Swap pq 0 (pq.length - 1)) 0 (pq.length - 1)).getD
      (pq.length - 1) default = pq.getD 0 default := by
    unfold heapDown
    rw [heapDownLoop_getD_ge _ _ _ _ (by omega) _ (le_refl _),
      Swap_getD pq _ _ _ (by omega) (by omega)]
    simp
  refine ⟨(heapDown (PriorityQueue.Swap pq 0 (pq.length - 1)) 0 (pq.length - 1)).take
    (pq.length - 1), ?_, ?_, ?_, ?_⟩
  · unfold heapPop
    rw [if_neg (by omega)]
    simp only
    rw [hlast]
  · rw [List.length_take, hlen2]; omega
  · have hperm : (heapDown (PriorityQueue.Swap pq 0 (pq.length - 1)) 0 (pq.length - 1)).Perm pq := by
      unfold heapDown
      exact (heapDownLoop_perm _ _ _ _ (by omega)).trans (Swap_perm pq _ _ (by omega) (by omega))
    refine List.Perm.trans ?_ hperm
    generalize hold : heapDown (PriorityQueue.Swap pq 0 (pq.length - 1)) 0 (pq.length - 1) = old
      at hlen2 hlast
    rw [← hlast]
    have hsplit : old = old.take (pq.length - 1) ++ [old.getD (pq.length - 1) default] := by
      conv_lhs => rw [← List.take_append_drop (pq.length - 1) old]
      congr 1
      rw [List.getD_eq_getElem _ _ (by omega)]
      rw [List.drop_eq_getElem_cons (by omega)]
      rw [List.drop_eq_nil_of_le (by omega)]
    conv_rhs => rw [hsplit]
    exact (List.perm_append_singleton _ _).symm
  · intro hheap
    unfold IsHeap
    rw [List.length_take, hlen2, Nat.min_eq_left (by omega)]
    intro k hk0 hkn
    rw [ampAt_take _ _ _ (by omega), ampAt_take _ _ _ hkn]
    have key := heapDownLoop_isHeap (pq.length - 1) (PriorityQueue.Swap pq 0 (pq.length - 1)) 0
      (pq.length - 1) (by omega) (by omega) ?_ ?_
    · exact key k hk0 hkn
    · intro k hk0 hkn hpk
      rw [Swap_ampAt pq _ _ _ (by omega) (by omega), Swap_ampAt pq _ _ _ (by omega) (by omega)]
      rw [if_neg (by omega), if_neg hpk, if_neg (by omega), if_neg (by omega)]
      exact hheap k hk0 (by omega)
    · intro k hk0 hkn hpk h0
      omega

/-! ## Lemmas: the bounded insertion and the drain loop -/

/-- With one unit of fuel per queued token the drain loop succeeds and appends the queued
tokens, in some order, to `peaks`. -/
theorem drainLoop_spec (fuel : Nat) (pq : PriorityQueue) (hfuel : pq.length ≤ fuel) :
    ∃ out : List Token, out.Perm pq ∧
      ∀ peaks : List Token, drainLoop fuel pq peaks = .ok (peaks ++ out) := by
  induction fuel generalizing pq with
  | zero =>
    have : pq = [] := List.length_eq_zero.mp (by omega)
    subst this
    exact ⟨[], List.Perm.refl _, fun peaks => by simp [drainLoop]⟩
  | succ fuel ih =>
    by_cases hpos : pq.length > 0
    · obtain ⟨pq1, hpop, hlen, hperm, -⟩ := heapPop_spec pq hpos
      obtain ⟨out, hp, hout⟩ := ih pq1 (by omega)
      refine ⟨pq.getD 0 default :: out, (List.Perm.cons _ hp).trans hperm, fun peaks => ?_⟩
      unfold drainLoop
      rw [if_pos hpos, hpop]
      simp only
      rw [hout]; simp
    · have : pq = [] := List.length_eq_zero.mp (by omega)
      subst this
      exact ⟨[], List.Perm.refl _, fun peaks => by simp [drainLoop]⟩

/-- The drain loop succeeds and appends the queued tokens, in some order, to `peaks`. -/
theorem drain_spec (pq : PriorityQueue) :
    ∃ out : List Token, out.Perm pq ∧
      ∀ peaks : List Token, drain pq peaks = .ok (peaks ++ out) :=
  drainLoop_spec pq.length pq (le_refl _)

theorem IsHeap_root_le (pq : PriorityQueue) (h : IsHeap pq) (p : Token) (hp : p ∈ pq) :
    (pq.getD 0 default).Amp ≤ p.Amp := by
  obtain ⟨k, hk, rfl⟩ := List.mem_iff_getElem.mp hp
  have := IsHeapUpTo_root_le pq pq.length h k hk
  unfold ampAt at this
  rw [List.getD_eq_getElem _ _ hk] at this
  exact this

/-- One bounded insertion: the queue stays a heap of at most `capacity` tokens, and the token
that is dropped, if any, is no larger than any token kept. -/
theorem offer_spec (capacity : Nat) (hcap : 1 ≤ capacity) (pq : PriorityQueue) (tok : Token)
    (hheap : IsHeap pq) (hlen : pq.length ≤ capacity) :
    ∃ (pq1 : PriorityQueue) (out : List Token), offer capacity pq tok = .ok pq1 ∧ IsHeap pq1 ∧
      pq1.length = min capacity (pq.length + 1) ∧ (pq1 ++ out).Perm (tok :: pq) ∧
      (pq.length < capacity → out = []) ∧
      (∀ o ∈ out, ∀ p ∈ pq1, o.Amp ≤ p.Amp) ∧
      (∀ p ∈ pq1, p ∈ pq ∨
        (p = tok ∧ (pq.length < capacity ∨ (pq.getD 0 default).Amp < tok.Amp))) := by
  unfold offer
  split
  · next hlt =>
    refine ⟨heapPush pq tok, [], rfl, heapPush_isHeap pq tok hheap, ?_, ?_, fun _ => rfl, ?_, ?_⟩
    · rw [heapPush_length]; omega
    · simpa using heapPush_perm pq tok
    · intro o ho; simp at ho
    · intro p hp
      rcases List.mem_cons.mp ((heapPush_perm pq tok).subset hp) with h | h
      · exact Or.inr ⟨h, Or.inl hlt⟩
      · exact Or.inl h
  · next hge =>
    have hpos : 0 < pq.length := by omega
    have h0 : pq[0]? = some (pq.getD 0 default) := by
      rw [List.getD_eq_getElem _ _ hpos]
      exact List.getElem?_eq_getElem hpos
    rw [h0]
    simp only
    split
    · next hgt =>
      obtain ⟨pq1, hpop, hl1, hperm, hh1⟩ := heapPop_spec pq hpos
      rw [hpop]
      simp only
      refine ⟨heapPush pq1 tok, [pq.getD 0 default], rfl, heapPush_isHeap _ _ (hh1 hheap), ?_, ?_,
        fun h => by omega, ?_, ?_⟩
      · rw [heapPush_length]; omega
      · have h1 : (heapPush pq1 tok ++ [pq.getD 0 default]).Perm
            (pq.getD 0 default :: tok :: pq1) :=
          (List.perm_append_singleton _ _).trans (List.Perm.cons _ (heapPush_perm pq1 tok))
        refine h1.trans ?_
        exact (List.Perm.swap _ _ _).trans (List.Perm.cons _ hperm)
      · intro o ho p hp
        simp only [List.mem_singleton] at ho
        subst ho
        have hp2 := (heapPush_perm pq1 tok).subset hp
        rcases List.mem_cons.mp hp2 with h | h
        · rw [h]; exact le_of_lt hgt
        · exact IsHeap_root_le pq hheap p (hperm.subset (List.mem_cons_of_mem _ h))
      · intro p hp
        rcases List.mem_cons.mp ((heapPush_perm pq1 tok).subset hp) with h | h
        · exact Or.inr ⟨h, Or.inr hgt⟩
        · exact Or.inl (hperm.subset (List.mem_cons_of_mem _ h))
    · next hle =>
      refine ⟨pq, [tok], rfl, hheap, by omega, ?_, fun h => by omega, ?_, ?_⟩
      · exact List.perm_append_singleton _ _
      · intro o ho p hp
        simp only [List.mem_singleton] at ho
        subst ho
        exact le_trans (not_lt.mp hle) (IsHeap_root_le pq hheap p hp)
      · intro p hp; exact Or.inl hp

/-- Offering a list of tokens one after the other to a bounded queue keeps the largest ones:
the queue ends as a heap of `min capacity (number offered)` tokens and no dropped token is
larger than a kept one. -/
theorem foldlM_offer_spec (capacity : Nat) (hcap : 1 ≤ capacity) (toks : List Token) :
    ∀ (pq : PriorityQueue) (seen rest : List Token), IsHeap pq →
      pq.length = min capacity seen.length → (pq ++ rest).Perm seen →
      (∀ r ∈ rest, ∀ p ∈ pq, r.Amp ≤ p.Amp) →
      ∃ (pq1 : PriorityQueue) (rest1 : List Token),
        toks.foldlM (offer capacity) pq = .ok pq1 ∧ IsHeap pq1 ∧
        pq1.length = min capacity (seen.length + toks.length) ∧
        (pq1 ++ rest1).Perm (seen ++ toks) ∧ (∀ r ∈ rest1, ∀ p ∈ pq1, r.Amp ≤ p.Amp) := by
  induction toks with
  | nil =>
    intro pq seen rest hh hl hp hr
    exact ⟨pq, rest, rfl, hh, by simpa using hl, by simpa using hp, hr⟩
  | cons tok toks ih =>
    intro pq seen rest hh hl hp hr
    obtain ⟨pq1, out, ho, hh1, hl1, hp1, hout, hle, hnew⟩ :=
      offer_spec capacity hcap pq tok hh (by omega)
    have hlen := hp.length_eq
    rw [List.length_append] at hlen
    obtain ⟨pq2, rest2, hf, hh2, hl2, hp2, hr2⟩ := ih pq1 (seen ++ [tok]) (out ++ rest) hh1
      (by
        have e : (seen ++ [tok]).length = seen.length + 1 := by simp
        omega)
      (by
        have h1 : (pq1 ++ (out ++ rest)).Perm ((pq1 ++ out) ++ rest) := by
          rw [List.append_assoc]
        refine h1.trans ((List.Perm.append_right rest hp1).trans ?_)
        have h2 : (tok :: pq ++ rest).Perm (tok :: seen) := List.Perm.cons _ hp
        exact h2.trans (List.perm_append_singleton _ _).symm)
      (by
        intro r hr1 p hp1'
        rcases List.mem_append.mp hr1 with h | h
        · exact hle r h p hp1'
        · rcases hnew p hp1' with h3 | ⟨h3, h4⟩
          · exact hr r h p h3
          · rcases h4 with h4 | h4
            · have : rest = [] := by
                apply List.length_eq_zero.mp
                omega
              rw [this] at h; simp at h
            · rw [h3]
              have hrpos : 0 < rest.length := List.length_pos_of_mem h
              have hpos : 0 < pq.length := by omega
              have htop : pq.getD 0 default ∈ pq := by
                rw [List.getD_eq_getElem _ _ hpos]; exact List.getElem_mem _
              exact le_of_lt (lt_of_le_of_lt (hr r h _ htop) h4))
    refine ⟨pq2, rest2, ?_, hh2, ?_, ?_, hr2⟩
    · rw [List.foldlM_cons, ho]
      exact hf
    · have e : (seen ++ [tok]).length = seen.length + 1 := by simp
      have e2 : (tok :: toks).length = toks.length + 1 := by simp
      omega
    · simpa using hp2

/-! ## Lemmas: Strategy A (`findPeaks`) -/

theorem mem_intRange (lo hi j : Int) : j ∈ intRange lo hi ↔ lo ≤ j ∧ j ≤ hi := by
  unfold intRange
  simp only [List.mem_map, List.mem_range]
  constructor
  · rintro ⟨k, hk, rfl⟩
    omega
  · rintro ⟨h1, h2⟩
    exact ⟨(j - lo).toNat, by omega, by omega⟩

theorem foldlM_flatMap {α β : Type} (F : β → α → Except Fault β) (γ : Type) (l : List γ)
    (g : γ → List α) (b : β) :
    l.foldlM (fun acc x => (g x).foldlM F acc) b = (l.flatMap g).foldlM F b := by
  induction l generalizing b with
  | nil => rfl
  | cons x l ih =>
    rw [List.foldlM_cons, List.flatMap_cons, List.foldlM_append]
    congr 1
    funext b1
    exact ih b1

theorem foldlM_filter_map {α β γ : Type} (F : β → α → Except Fault β) (c : γ → Bool)
    (g : γ → α) (l : List γ) (b : β) :
    l.foldlM (fun acc x => if c x then F acc (g x) else .ok acc) b
      = ((l.filter c).map g).foldlM F b := by
  induction l generalizing b with
  | nil => rfl
  | cons x l ih =>
    rw [List.foldlM_cons]
    by_cases h : c x = true
    · rw [if_pos h, List.filter_cons_of_pos h, List.map_cons, List.foldlM_cons]
      congr 1
      funext b1
      exact ih b1
    · rw [if_neg h, List.filter_cons_of_neg h]
      exact ih b

/-- The two loops of `findPeaks` offer the candidate peaks, in scan order, to an empty queue. -/
theorem findPeaks_eq (sg : Spectrogram) (topN : Nat) :
    findPeaks sg topN =
      ((candidatePeaks sg).foldlM (offer topN) ([] : PriorityQueue)) >>= fun pq => drain pq [] := by
  unfold findPeaks candidatePeaks
  rw [← foldlM_flatMap]
  congr 1
  congr 1
  funext pq t
  exact foldlM_filter_map (offer topN) _ _ _ pq

theorem cellAt_eq_some_iff (sg : Spectrogram) (t f : Nat) (a : ℚ) :
    cellAt sg t f = some a ↔
      t < sg.length ∧ f < (sg.getD t []).length ∧ (sg.getD t []).getD f 0 = a := by
  unfold cellAt
  by_cases ht : t < sg.length
  · rw [List.getElem?_eq_getElem ht, List.getD_eq_getElem _ _ ht]
    simp only [Option.some_bind]
    by_cases hf : f < sg[t].length
    · rw [List.getElem?_eq_getElem hf, List.getD_eq_getElem _ _ hf]
      simp [ht, hf]
    · rw [List.getElem?_eq_none (by omega)]
      simp [hf]
  · rw [List.getElem?_eq_none (by omega)]
    simp [ht]

/-- The neighbourhood test of `findPeaks` at a cell `(t, f)` of the spectrogram holds exactly
when every other cell of frame `t` within 100 bins of `f` has a strictly smaller amplitude. -/
theorem iterNbhd_peak_iff (sg : Spectrogram) (t f : Nat) (ht : t < sg.length) (amp : ℚ) :
    iterNbhd sg t f 0 100 (fun nbhrAmp => decide (nbhrAmp ≥ amp)) = true ↔
      ∀ (f' : Nat) (a' : ℚ), f' ≠ f → f' ≤ f + 100 → f ≤ f' + 100 →
        cellAt sg t f' = some a' → a' < amp := by
  unfold iterNbhd
  rw [List.all_eq_true]
  simp only [mem_intRange]
  constructor
  · intro h f' a' hne h1 h2 hc
    have h3 := h (t : Int) ⟨by omega, by omega⟩
    rw [if_neg (by omega), List.all_eq_true] at h3
    have h4 := h3 (f' : Int) ((mem_intRange _ _ _).mpr ⟨by omega, by omega⟩)
    rw [if_neg (by omega)] at h4
    obtain ⟨-, hf', hv⟩ := (cellAt_eq_some_iff sg t f' a').mp hc
    rw [List.getD_eq_getElem _ _ ht] at hf' hv
    simp only [Int.toNat_ofNat, List.getElem?_eq_getElem ht] at h4
    rw [if_neg (by omega)] at h4
    rw [List.getElem?_eq_getElem hf'] at h4
    rw [List.getD_eq_getElem _ _ hf'] at hv
    simp only [Bool.not_eq_true', decide_eq_false_iff_not, ge_iff_le, not_le] at h4
    rw [← hv]; exact h4
  · intro h i hi
    have hit : i = (t : Int) := by omega
    subst hit
    rw [if_neg (by omega), List.all_eq_true]
    intro j hj
    rw [mem_intRange] at hj
    split
    · rfl
    · next hne =>
      simp only [Int.toNat_ofNat, List.getElem?_eq_getElem ht]
      split
      · rfl
      · next hrange =>
        have hj0 : 0 ≤ j := by omega
        have hjlt : j.toNat < sg[t].length := by omega
        rw [List.getElem?_eq_getElem hjlt]
        simp only [Bool.not_eq_true', decide_eq_false_iff_not, ge_iff_le, not_le]
        apply h j.toNat _ (by omega) (by omega) (by omega)
        rw [cellAt_eq_some_iff]
        refine ⟨ht, ?_, ?_⟩
        · rw [List.getD_eq_getElem _ _ ht]; exact hjlt
        · rw [List.getD_eq_getElem _ _ ht, List.getD_eq_getElem _ _ hjlt]

theorem mem_candidatePeaks (sg : Spectrogram) (tok : Token) :
    tok ∈ candidatePeaks sg ↔
      ∃ (t f : Nat), tok = ⟨(t : Int), (f : Int), tok.Amp⟩ ∧ IsCandidatePeak sg t f tok.Amp := by
  unfold candidatePeaks IsCandidatePeak
  simp only [List.mem_flatMap, List.mem_range, List.mem_map, List.mem_filter]
  constructor
  · rintro ⟨t, ht, f, ⟨hf, hpeak⟩, rfl⟩
    refine ⟨t, f, rfl, ?_, ?_⟩
    · exact (cellAt_eq_some_iff sg t f _).mpr ⟨ht, hf, rfl⟩
    · exact (iterNbhd_peak_iff sg t f ht _).mp hpeak
  · rintro ⟨t, f, htok, hc, hall⟩
    obtain ⟨ht, hf, hv⟩ := (cellAt_eq_some_iff sg t f _).mp hc
    refine ⟨t, ht, f, ⟨hf, ?_⟩, ?_⟩
    · rw [hv]
      exact (iterNbhd_peak_iff sg t f ht _).mpr hall
    · rw [hv]; exact htok.symm

theorem nodup_candidatePeaks (sg : Spectrogram) : (candidatePeaks sg).Nodup := by
  unfold candidatePeaks
  rw [List.nodup_flatMap]
  refine ⟨?_, ?_⟩
  · intro t _
    apply List.Nodup.map_on
    · intro x _ y _ h
      have := congrArg Token.Freq h
      simpa using this
    · exact (List.nodup_range _).filter _
  · apply List.Pairwise.imp_of_mem _ (List.nodup_range sg.length)
    intro t1 t2 _ _ hne
    intro tok h1 h2
    simp only [List.mem_map, List.mem_filter] at h1 h2
    obtain ⟨f1, -, rfl⟩ := h1
    obtain ⟨f2, -, h2⟩ := h2
    have := congrArg Token.Time h2
    simp at this
    exact hne this.symm

/-- The result of `findPeaks`: a part of the candidate peaks of size `min topN c`, the rest being
no larger in amplitude. -/
theorem findPeaks_perm (sg : Spectrogram) (topN : Nat) (htop : 1 ≤ topN) :
    ∃ (peaks rest : List Token), findPeaks sg topN = .ok peaks ∧
      (peaks ++ rest).Perm (candidatePeaks sg) ∧
      peaks.length = min topN (candidatePeaks sg).length ∧
      ∀ r ∈ rest, ∀ p ∈ peaks, r.Amp ≤ p.Amp := by
  obtain ⟨pq, rest, hfold, -, hlen, hperm, hle⟩ :=
    foldlM_offer_spec topN htop (candidatePeaks sg) [] [] []
      (by intro k _ hk; simp at hk) (by simp) (by simp) (by simp)
  obtain ⟨out, hout, hdrain⟩ := drain_spec pq
  refine ⟨out, rest, ?_, ?_, ?_, ?_⟩
  · rw [findPeaks_eq, hfold]
    simpa using hdrain []
  · simpa using (List.Perm.append_right rest hout).trans hperm
  · rw [hout.length_eq, hlen]; simp
  · intro r hr p hp
    exact hle r hr p (hout.subset hp)

/-! ## Lemmas: Strategy B (`findPeaks2`) -/

theorem foldlM_congr_mem {α β : Type} (F G : β → α → Except Fault β) (l : List α)
    (h : ∀ a ∈ l, ∀ b, F b a = G b a) (b : β) : l.foldlM F b = l.foldlM G b := by
  induction l generalizing b with
  | nil => rfl
  | cons a l ih =>
    rw [List.foldlM_cons, List.foldlM_cons, h a (List.mem_cons_self _ _) b]
    congr 1
    funext b1
    exact ih (fun a ha b => h a (List.mem_cons_of_mem _ ha) b) b1

theorem mem_blockCells (sg : Spectrogram) (t0 t1 f0 f1 : Nat) (tok : Token) :
    tok ∈ blockCells sg t0 t1 f0 f1 ↔
      ∃ (i j : Nat), t0 ≤ i ∧ i < t1 ∧ f0 ≤ j ∧ j < f1 ∧
        tok = ⟨(i : Int), (j : Int), (sg.getD i []).getD j 0⟩ := by
  unfold blockCells
  simp only [List.mem_flatMap, List.mem_map, List.mem_range'_1]
  constructor
  · rintro ⟨i, hi, j, hj, rfl⟩
    exact ⟨i, j, by omega, by omega, by omega, by omega, rfl⟩
  · rintro ⟨i, j, h1, h2, h3, h4, rfl⟩
    exact ⟨i, by omega, j, by omega, rfl⟩

theorem length_blockCells (sg : Spectrogram) (t0 t1 f0 f1 : Nat) :
    (blockCells sg t0 t1 f0 f1).length = (t1 - t0) * (f1 - f0) := by
  unfold blockCells
  generalize t1 - t0 = n
  induction n generalizing t0 with
  | zero => simp
  | succ n ih =>
    rw [List.range'_succ, List.flatMap_cons, List.length_append, ih]
    simp only [List.length_map, List.length_range']
    ring

/-- When the cells of the block lie inside the spectrogram, the scan of the block is the
successive offering of its cells to an empty queue. -/
theorem scanBlock_eq (sg : Spectrogram) (k : Nat) (t0 t1 f0 f1 bins : Nat)
    (huni : ∀ row ∈ sg, row.length = bins) (ht1 : t1 ≤ sg.length) (hf1 : f1 ≤ bins) :
    scanBlock sg k t0 t1 f0 f1 =
      (blockCells sg t0 t1 f0 f1).foldlM (offer k) ([] : PriorityQueue) := by
  unfold scanBlock blockCells
  rw [← foldlM_flatMap]
  apply foldlM_congr_mem
  intro i hi pq
  rw [List.mem_range'_1] at hi
  rw [List.foldlM_map]
  apply foldlM_congr_mem
  intro j hj pq
  rw [List.mem_range'_1] at hj
  have hi' : i < sg.length := by omega
  have hrow : sg[i].length = bins := huni _ (List.getElem_mem _)
  have hj' : j < sg[i].length := by omega
  rw [List.getElem?_eq_getElem hi']
  simp only
  rw [List.getElem?_eq_getElem hj']
  simp only
  rw [List.getD_eq_getElem _ _ hi', List.getD_eq_getElem _ _ hj']

/-- The scan of a block inside the spectrogram keeps `min tokenPerWindow (number of scanned
cells)` of the scanned cells, and no scanned cell that is dropped is larger than one kept. -/
theorem scanBlock_spec (sg : Spectrogram) (k : Nat) (hk : 1 ≤ k) (t0 t1 f0 f1 bins : Nat)
    (huni : ∀ row ∈ sg, row.length = bins) (ht1 : t1 ≤ sg.length) (hf1 : f1 ≤ bins) :
    ∃ (pq : PriorityQueue) (rest : List Token), scanBlock sg k t0 t1 f0 f1 = .ok pq ∧
      pq.length = min k ((t1 - t0) * (f1 - f0)) ∧
      (pq ++ rest).Perm (blockCells sg t0 t1 f0 f1) ∧
      ∀ r ∈ rest, ∀ p ∈ pq, r.Amp ≤ p.Amp := by
  obtain ⟨pq, rest, hfold, -, hlen, hperm, hle⟩ :=
    foldlM_offer_spec k hk (blockCells sg t0 t1 f0 f1) [] [] []
      (by intro k _ hk; simp at hk) (by simp) (by simp) (by simp)
  refine ⟨pq, rest, ?_, ?_, ?_, hle⟩
  · rw [scanBlock_eq sg k t0 t1 f0 f1 bins huni ht1 hf1]; exact hfold
  · rw [hlen, length_blockCells]; simp
  · simpa using hperm

/-- One block step inside the spectrogram appends to `peaks` the tokens kept by the scan. -/
theorem blockStep_spec (sg : Spectrogram) (k : Nat) (hk : 1 ≤ k) (bins tw fw : Nat)
    (huni : ∀ row ∈ sg, row.length = bins) :
    ∃ (out rest : List Token),
      (∀ peaks : List Token, blockStep sg k bins tw fw peaks = .ok (peaks ++ out)) ∧
      out.length = min k
        ((min ((tw + 1) * SIZE_TIME_WINDOWS) (sg.length - 1) - tw * SIZE_TIME_WINDOWS) *
          (min ((fw + 1) * SIZE_FREQ_WINDOWS) (bins - 1) - fw * SIZE_FREQ_WINDOWS)) ∧
      (out ++ rest).Perm (blockCells sg (tw * SIZE_TIME_WINDOWS)
        (min ((tw + 1) * SIZE_TIME_WINDOWS) (sg.length - 1)) (fw * SIZE_FREQ_WINDOWS)
        (min ((fw + 1) * SIZE_FREQ_WINDOWS) (bins - 1))) ∧
      ∀ r ∈ rest, ∀ p ∈ out, r.Amp ≤ p.Amp := by
  obtain ⟨pq, rest, hscan, hlen, hperm, hle⟩ := scanBlock_spec sg k hk
    (tw * SIZE_TIME_WINDOWS) (min ((tw + 1) * SIZE_TIME_WINDOWS) (sg.length - 1))
    (fw * SIZE_FREQ_WINDOWS) (min ((fw + 1) * SIZE_FREQ_WINDOWS) (bins - 1)) bins huni
    (by omega) (by omega)
  obtain ⟨out, hout, hdrain⟩ := drain_spec pq
  refine ⟨out, rest, ?_, ?_, ?_, ?_⟩
  · intro peaks
    unfold blockStep
    simp only [hscan]
    exact hdrain peaks
  · rw [hout.length_eq, hlen]
  · exact (List.Perm.append_right rest hout).trans hperm
  · intro r hr p hp
    exact hle r hr p (hout.subset hp)

theorem nodup_gridBlocks (frames bins : Nat) : (gridBlocks frames bins).Nodup := by
  unfold gridBlocks
  rw [List.nodup_flatMap]
  refine ⟨?_, ?_⟩
  · intro tw _
    apply List.Nodup.map_on
    · intro x _ y _ h
      simpa using h
    · exact List.nodup_range _
  · apply List.Pairwise.imp_of_mem _ (List.nodup_range _)
    intro t1 t2 _ _ hne
    intro b h1 h2
    simp only [List.mem_map] at h1 h2
    obtain ⟨f1, -, rfl⟩ := h1
    obtain ⟨f2, -, h2⟩ := h2
    simp at h2
    exact hne h2.1.symm

theorem mem_gridBlocks (frames bins tw fw : Nat) :
    (tw, fw) ∈ gridBlocks frames bins ↔
      tw < frames / SIZE_TIME_WINDOWS ∧ fw < bins / SIZE_FREQ_WINDOWS := by
  unfold gridBlocks
  simp [List.mem_flatMap, List.mem_map, List.mem_range]

theorem findPeaks2_eq (sg : Spectrogram) (k : Nat) (frame0 : List ℚ)
    (h0 : sg[0]? = some frame0) :
    findPeaks2 sg k = (gridBlocks sg.length frame0.length).foldlM
      (fun peaks b => blockStep sg k frame0.length b.1 b.2 peaks) ([] : List Token) := by
  unfold findPeaks2 gridBlocks
  rw [h0]
  simp only
  rw [← foldlM_flatMap]
  congr 1
  funext peaks tw
  rw [List.foldlM_map]

theorem foldlM_append_outs {α : Type} (F : List Token → α → Except Fault (List Token))
    (out : α → List Token) (l : List α)
    (h : ∀ a ∈ l, ∀ peaks, F peaks a = .ok (peaks ++ out a)) (peaks0 : List Token) :
    l.foldlM F peaks0 = .ok (peaks0 ++ l.flatMap out) := by
  induction l generalizing peaks0 with
  | nil => simp; rfl
  | cons a l ih =>
    rw [List.foldlM_cons, h a (List.mem_cons_self _ _)]
    have := ih (fun a ha => h a (List.mem_cons_of_mem _ ha)) (peaks0 ++ out a)
    simp only [List.flatMap_cons, ← List.append_assoc]
    exact this

theorem filter_flatMap_eq_nil {α β : Type} (g : α → List β) (p : β → Bool) (l : List α)
    (h : ∀ a ∈ l, (g a).filter p = []) : (l.flatMap g).filter p = [] := by
  induction l with
  | nil => rfl
  | cons a l ih =>
    rw [List.flatMap_cons, List.filter_append, h a (List.mem_cons_self _ _),
      ih (fun a ha => h a (List.mem_cons_of_mem _ ha))]
    rfl

theorem length_filter_flatMap_le {α β : Type} (g : α → List β) (p : β → Bool) (l : List α)
    (hnd : l.Nodup) (a0 : α) (h : ∀ a ∈ l, a ≠ a0 → (g a).filter p = []) :
    ((l.flatMap g).filter p).length ≤ ((g a0).filter p).length := by
  induction l with
  | nil => simp
  | cons a l ih =>
    rw [List.flatMap_cons, List.filter_append, List.length_append]
    rw [List.nodup_cons] at hnd
    by_cases ha : a = a0
    · subst ha
      rw [filter_flatMap_eq_nil g p l (fun b hb =>
        h b (List.mem_cons_of_mem _ hb) (fun hba => hnd.1 (hba ▸ hb)))]
      simp
    · rw [h a (List.mem_cons_self _ _) ha]
      simpa using ih hnd.2 (fun b hb => h b (List.mem_cons_of_mem _ hb))

theorem inBlock_of_mem_blockCells (sg : Spectrogram) (bins tw fw : Nat) (tok : Token)
    (h : tok ∈ blockCells sg (tw * SIZE_TIME_WINDOWS)
      (min ((tw + 1) * SIZE_TIME_WINDOWS) (sg.length - 1)) (fw * SIZE_FREQ_WINDOWS)
      (min ((fw + 1) * SIZE_FREQ_WINDOWS) (bins - 1))) :
    inBlock tw fw tok = true := by
  obtain ⟨i, j, h1, h2, h3, h4, rfl⟩ := (mem_blockCells _ _ _ _ _ _).mp h
  unfold inBlock
  simp only [decide_eq_true_eq]
  omega

theorem inBlock_unique (tw fw tw1 fw1 : Nat) (tok : Token) (h : inBlock tw fw tok = true)
    (h1 : inBlock tw1 fw1 tok = true) : (tw, fw) = (tw1, fw1) := by
  unfold inBlock at h h1
  simp only [decide_eq_true_eq, SIZE_TIME_WINDOWS, SIZE_FREQ_WINDOWS] at h h1
  have : tw = tw1 := by omega
  have : fw = fw1 := by omega
  simp [*]

/-- The result of `findPeaks2` on a non-empty spectrogram with frames of equal length: the
concatenation, over the scanned blocks in loop order, of the tokens kept for each block. -/
theorem findPeaks2_structure (sg : Spectrogram) (k : Nat) (hk : 1 ≤ k) (frame0 : List ℚ)
    (h0 : sg[0]? = some frame0) (huni : ∀ row ∈ sg, row.length = frame0.length) :
    ∃ (out rest : Nat → Nat → List Token),
      findPeaks2 sg k =
        .ok ((gridBlocks sg.length frame0.length).flatMap fun b => out b.1 b.2) ∧
      ∀ tw fw : Nat,
        (out tw fw).length = min k
          ((min ((tw + 1) * SIZE_TIME_WINDOWS) (sg.length - 1) - tw * SIZE_TIME_WINDOWS) *
            (min ((fw + 1) * SIZE_FREQ_WINDOWS) (frame0.length - 1) - fw * SIZE_FREQ_WINDOWS)) ∧
        (out tw fw ++ rest tw fw).Perm (blockCells sg (tw * SIZE_TIME_WINDOWS)
          (min ((tw + 1) * SIZE_TIME_WINDOWS) (sg.length - 1)) (fw * SIZE_FREQ_WINDOWS)
          (min ((fw + 1) * SIZE_FREQ_WINDOWS) (frame0.length - 1))) ∧
        ∀ r ∈ rest tw fw, ∀ p ∈ out tw fw, r.Amp ≤ p.Amp := by
  choose out rest hstep hlen hperm hle using
    fun tw fw => blockStep_spec sg k hk frame0.length tw fw huni
  refine ⟨out, rest, ?_, fun tw fw => ⟨hlen tw fw, hperm tw fw, hle tw fw⟩⟩
  rw [findPeaks2_eq sg k frame0 h0]
  have := foldlM_append_outs (fun peaks (b : Nat × Nat) => blockStep sg k frame0.length b.1 b.2 peaks)
    (fun b => out b.1 b.2) (gridBlocks sg.length frame0.length)
    (fun b _ peaks => hstep b.1 b.2 peaks) []
  simpa using this

theorem cellAt_of_mem_blockCells (sg : Spectrogram) (bins : Nat)
    (huni : ∀ row ∈ sg, row.length = bins) (t0 t1 f0 f1 : Nat) (ht1 : t1 ≤ sg.length)
    (hf1 : f1 ≤ bins) (tok : Token) (h : tok ∈ blockCells sg t0 t1 f0 f1) :
    ∃ (i j : Nat), tok = ⟨(i : Int), (j : Int), tok.Amp⟩ ∧ cellAt sg i j = some tok.Amp := by
  obtain ⟨i, j, h1, h2, h3, h4, rfl⟩ := (mem_blockCells _ _ _ _ _ _).mp h
  refine ⟨i, j, rfl, ?_⟩
  rw [cellAt_eq_some_iff]
  have hi : i < sg.length := by omega
  refine ⟨hi, ?_, rfl⟩
  rw [List.getD_eq_getElem _ _ hi, huni _ (List.getElem_mem _)]
  omega

theorem gridExample_uniform :
    ∀ r1 ∈ gridExample, ∀ r2 ∈ gridExample, r1.length = r2.length := by
  have h : ∀ r ∈ gridExample, r.length = 200 := by
    intro r hr
    unfold gridExample at hr
    rcases List.mem_append.mp hr with h | h
    · rw [(List.mem_replicate.mp h).2, List.length_replicate]
    · rw [List.mem_singleton.mp h, List.length_replicate]
  intro r1 h1 r2 h2
  rw [h r1 h1, h r2 h2]

theorem gridExample_ne_nil : gridExample ≠ [] := by
  unfold gridExample
  simp

theorem gridExample_getD (i j : Nat) (hi : i < 9) :
    (gridExample.getD i []).getD j 0 = 0 := by
  have e : gridExample.getD i [] = List.replicate 200 0 := by
    unfold gridExample
    rw [List.getD_append _ _ _ _ (by simpa using hi),
      List.getD_eq_getElem _ _ (by simpa using hi), List.getElem_replicate]
  rw [e]
  by_cases hj : j < 200
  · rw [List.getD_eq_getElem _ _ (by rw [List.length_replicate]; exact hj),
      List.getElem_replicate]
  · rw [List.getD_eq_default _ _ (by rw [List.length_replicate]; omega)]

theorem gridExample_cell_9_0 : cellAt gridExample 9 0 = some 1 := by
  have e : gridExample[9]? = some (List.replicate 200 1) := by
    unfold gridExample
    rw [List.getElem?_append_right (by simp)]
    simp
  unfold cellAt
  rw [e]
  simp only [Option.some_bind]
  rw [List.getElem?_eq_getElem (by rw [List.length_replicate]; decide), List.getElem_replicate]

/-! ## Lemmas: spectrogram construction -/

/-- The downsampled frame has `len(arr)/5 + 1` values. -/
theorem complex128ArrToMagArr_length (mags : List ℚ) :
    (complex128ArrToMagArr mags).length = mags.length / 5 + 1 := by
  unfold complex128ArrToMagArr
  simp only
  have key : ∀ (l : List (Nat × ℚ)) (res : List ℚ),
      (l.foldl (fun res ic =>
        if ic.1 / 5 % 5 = 5 - 1 then
          (res.set (ic.1 / 5) (res.getD (ic.1 / 5) 0 + ic.2)).set (ic.1 / 5)
            ((res.set (ic.1 / 5) (res.getD (ic.1 / 5) 0 + ic.2)).getD (ic.1 / 5) 0 / ((5 : Nat) : ℚ))
        else res.set (ic.1 / 5) (res.getD (ic.1 / 5) 0 + ic.2)) res).length = res.length := by
    intro l
    induction l with
    | nil => intro res; rfl
    | cons a l ih =>
      intro res
      rw [List.foldl_cons, ih]
      split <;> simp
  rw [key]
  simp

/-- With a positive step, a non-negative window size, no overflow of the index arithmetic and
enough fuel, the chunk loop started at `i ≥ 0` succeeds and appends the windows
`windowAt pcm binSize (i + k * stepSize)`. -/
theorem chunkLoop_spec (fuel : Nat) (pcm : List ℚ) (binSize stepSize i : Int)
    (res : List (List ℚ)) (hstep : 1 ≤ stepSize) (hbin : 0 ≤ binSize) (hi : 0 ≤ i)
    (hb : (pcm.length : Int) + binSize < 2 ^ 63) (hs : (pcm.length : Int) + stepSize < 2 ^ 63)
    (hpos : 0 < fuel) (hfuel : (pcm.length : Int) < i + fuel) :
    chunkLoop fuel pcm binSize stepSize i res =
      .ok (res ++ (List.range (((pcm.length : Int) - i + stepSize - 1) / stepSize).toNat).map
        fun (k : Nat) => windowAt pcm binSize (i + (k : Int) * stepSize)) := by
  induction fuel generalizing i res with
  | zero => omega
  | succ fuel ih =>
    unfold chunkLoop
    split
    · next hlt =>
      simp only
      have ha : addInt i stepSize = i + stepSize := addInt_of_range (by omega) (by omega)
      have hj : addInt i binSize = i + binSize := addInt_of_range (by omega) (by omega)
      rw [if_pos (by rw [hj]; omega), ha]
      rw [ih (i + stepSize) _ (by omega) (by push_cast at hfuel; omega)
        (by push_cast at hfuel; omega)]
      have hq : ((pcm.length : Int) - i + stepSize - 1) / stepSize
          = ((pcm.length : Int) - (i + stepSize) + stepSize - 1) / stepSize + 1 := by
        have e : (pcm.length : Int) - i + stepSize - 1
            = ((pcm.length : Int) - (i + stepSize) + stepSize - 1) + 1 * stepSize := by ring
        rw [e, Int.add_mul_ediv_right _ _ (by omega)]
      have hq0 : 0 ≤ ((pcm.length : Int) - (i + stepSize) + stepSize - 1) / stepSize :=
        Int.ediv_nonneg (by omega) (by omega)
      rw [hq, Int.toNat_add hq0 (by decide)]
      simp only [Int.toNat_one]
      rw [List.range_succ_eq_map, List.map_cons, List.map_map]
      have e1 : windowAt pcm binSize (i + ((0 : Nat) : Int) * stepSize)
          = (pcm.drop i.toNat).take
            (min (addInt i binSize) ((pcm.length : Int) - 1) - i).toNat := by
        simp [windowAt]
      have e2 : ((fun (k : Nat) => windowAt pcm binSize (i + (k : Int) * stepSize)) ∘ Nat.succ)
          = fun (k : Nat) => windowAt pcm binSize (i + stepSize + (k : Int) * stepSize) := by
        funext k
        simp only [Function.comp]
        congr 1
        push_cast
        ring
      rw [e1, e2]
      simp only [List.append_assoc, List.singleton_append]
    · next hge =>
      have hq : (((pcm.length : Int) - i + stepSize - 1) / stepSize).toNat = 0 := by
        apply Int.toNat_eq_zero.mpr
        have : ((pcm.length : Int) - i + stepSize - 1) / stepSize < 1 := by
          apply Int.ediv_lt_of_lt_mul (by omega)
          omega
        omega
      rw [hq]
      simp

/-- The capacity test of `make` passes for a capacity between zero and the number of samples
of a buffer whose `24 * len` bytes are within `maxAlloc`. -/
theorem makePanics_of_le (len cap : Int) (hm : 24 * len ≤ maxAlloc) (h0 : 0 ≤ cap)
    (h1 : cap ≤ len) : makePanics 24 cap = false := by
  unfold makePanics
  rw [decide_eq_false_iff_not]
  omega

/-- For `0 ≤ overlap < binSize`, without overflow and within the limit of `make`,
`chunkAndNormaliseAudio` returns the windows `pcm[k*step : min(k*step+binSize, len(pcm)-1)]` for
`k` below `⌈len(pcm)/step⌉`. -/
theorem chunkAndNormaliseAudio_spec (pcm : List ℚ) (binSize overlap : Int)
    (h0 : 0 ≤ overlap) (h1 : overlap < binSize)
    (hb : (pcm.length : Int) + binSize < 2 ^ 63) (hm : 24 * (pcm.length : Int) ≤ maxAlloc) :
    chunkAndNormaliseAudio pcm binSize overlap =
      .ok ((List.range (((pcm.length : Int) + (binSize - overlap) - 1) /
          (binSize - overlap)).toNat).map
        fun (k : Nat) => windowAt pcm binSize ((k : Int) * (binSize - overlap))) := by
  have hs : subInt binSize overlap = binSize - overlap := subInt_of_range (by omega) (by omega)
  have hd := (tdiv_bounds (pcm.length : Int) (binSize - overlap) (by omega)).1 (by omega)
  have hdiv : divInt (pcm.length : Int) (binSize - overlap)
      = (pcm.length : Int) / (binSize - overlap) := by
    unfold divInt
    rw [hd.1]
    exact wrap64_of_range (by omega) (by omega)
  unfold chunkAndNormaliseAudio
  simp only
  rw [hs, if_neg (by omega), hdiv,
    makePanics_of_le (pcm.length : Int) _ hm hd.2.1 hd.2.2]
  simp only [Bool.false_eq_true, if_false]
  rw [chunkLoop_spec _ _ _ _ _ _ (by omega) (by omega) (le_refl _) hb (by omega) (by omega)
    (by push_cast; omega)]
  simp

/-- A window has at most `binSize` samples. -/
theorem windowAt_length_le (pcm : List ℚ) (binSize i : Int) (hbin : 0 ≤ binSize) (hi : 0 ≤ i)
    (hb : (pcm.length : Int) + binSize < 2 ^ 63) :
    ((windowAt pcm binSize i).length : Int) ≤ binSize := by
  unfold windowAt
  rw [List.length_take, List.length_drop]
  by_cases hlt : i < (pcm.length : Int)
  · rw [addInt_of_range (by omega) (by omega)]
    omega
  · omega



/-- Past the division of line 18 and the `make` of line 23, `GetSpectrogram` maps the windows of
`chunkAndNormaliseAudio` to their frames. -/
theorem GetSpectrogram_eq_map (fftMag : List ℚ → List ℚ) (buff : List ℚ)
    (binSize overlap : Int) (chunks : List (List ℚ)) (hne : subInt binSize overlap ≠ 0)
    (hmake : makePanics 24
      (if divInt (subInt (addInt (subInt (buff.length : Int) overlap)
            (subInt binSize overlap)) 1) (subInt binSize overlap) < 0 then 0
        else divInt (subInt (addInt (subInt (buff.length : Int) overlap)
            (subInt binSize overlap)) 1) (subInt binSize overlap)) = false)
    (h : chunkAndNormaliseAudio buff binSize overlap = .ok chunks) :
    GetSpectrogram fftMag buff binSize overlap =
      .ok (chunks.map fun audioBin => complex128ArrToMagArr (fftMag audioBin)) := by
  unfold GetSpectrogram
  simp only
  rw [if_neg hne, hmake, h]
  rfl

/-- For `0 ≤ overlap < binSize`, without overflow and within the limit of `make`, the capacity
`numChunks` of line 23 is accepted. -/
theorem numChunks_accepted (len binSize overlap : Int) (hlen : 0 ≤ len)
    (h0 : 0 ≤ overlap) (h1 : overlap < binSize)
    (hb : len + binSize < 2 ^ 63) (hm : 24 * len ≤ maxAlloc) :
    makePanics 24
      (if divInt (subInt (addInt (subInt len overlap)
            (subInt binSize overlap)) 1) (subInt binSize overlap) < 0 then 0
        else divInt (subInt (addInt (subInt len overlap)
            (subInt binSize overlap)) 1) (subInt binSize overlap)) = false := by
  have hs : subInt binSize overlap = binSize - overlap := subInt_of_range (by omega) (by omega)
  have e1 : subInt len overlap = len - overlap := subInt_of_range (by omega) (by omega)
  have e2 : addInt (len - overlap) (binSize - overlap) = len - overlap + (binSize - overlap) :=
    addInt_of_range (by omega) (by omega)
  have e3 : subInt (len - overlap + (binSize - overlap)) 1
      = len - overlap + (binSize - overlap) - 1 := subInt_of_range (by omega) (by omega)
  rw [hs, e1, e2, e3]
  have hmz : makePanics 24 0 = false := by
    unfold makePanics maxAlloc
    decide
  have hbnd := tdiv_bounds (len - overlap + (binSize - overlap) - 1) (binSize - overlap)
    (by omega)
  by_cases ha : 0 ≤ len - overlap + (binSize - overlap) - 1
  · obtain ⟨ht, hq0, hqa⟩ := hbnd.1 ha
    have hd : divInt (len - overlap + (binSize - overlap) - 1) (binSize - overlap)
        = (len - overlap + (binSize - overlap) - 1) / (binSize - overlap) := by
      unfold divInt
      rw [ht]
      exact wrap64_of_range (by omega) (by omega)
    rw [hd, if_neg (by omega)]
    apply makePanics_of_le len _ hm hq0
    have hlt : (len - overlap + (binSize - overlap) - 1) / (binSize - overlap) < len + 1 := by
      apply Int.ediv_lt_of_lt_mul (by omega)
      have : len * 1 ≤ len * (binSize - overlap) :=
        Int.mul_le_mul_of_nonneg_left (by omega) hlen
      have e : (len + 1) * (binSize - overlap) = len * (binSize - overlap) + (binSize - overlap) := by
        ring
      omega
    omega
  · obtain ⟨hlo, hhi⟩ := hbnd.2 (by omega)
    have hd : divInt (len - overlap + (binSize - overlap) - 1) (binSize - overlap)
        = Int.tdiv (len - overlap + (binSize - overlap) - 1) (binSize - overlap) := by
      unfold divInt
      exact wrap64_of_range (by omega) (by omega)
    rw [hd]
    split
    · exact hmz
    · next hnn =>
      have : Int.tdiv (len - overlap + (binSize - overlap) - 1) (binSize - overlap) = 0 := by
        omega
      rw [this]; exact hmz

/-- For a non-empty buffer and `binSize < overlap` (both machine integers)
`chunkAndNormaliseAudio` stops in `make` or in the slice expression: the first window has a
negative upper bound, or the second a negative lower bound. -/
theorem chunkAndNormaliseAudio_neg_step (pcm : List ℚ) (binSize overlap : Int)
    (hb : -(2 ^ 63) ≤ binSize ∧ binSize < 2 ^ 63)
    (ho : -(2 ^ 63) ≤ overlap ∧ overlap < 2 ^ 63)
    (hne : pcm ≠ []) (hlt : binSize < overlap) :
    chunkAndNormaliseAudio pcm binSize overlap = .error .makeSliceCap ∨
      chunkAndNormaliseAudio pcm binSize overlap = .error .sliceBounds := by
  have hlen : 0 < pcm.length := List.length_pos.mpr hne
  have hstep : subInt binSize overlap ≠ 0 := subInt_ne_zero hb ho (by omega)
  have hbin : addInt 0 binSize = binSize := by
    rw [addInt_of_range (by omega) (by omega)]; omega
  unfold chunkAndNormaliseAudio
  simp only
  rw [if_neg hstep]
  split
  · exact Or.inl rfl
  · right
    obtain ⟨n, hn⟩ : ∃ n, pcm.length = n + 1 := ⟨pcm.length - 1, by omega⟩
    rw [hn]
    unfold chunkLoop
    rw [if_pos (by omega)]
    simp only
    rw [hbin]
    split
    · next hj =>
      have hbn : 0 ≤ binSize := by omega
      have hs : subInt binSize overlap = binSize - overlap :=
        subInt_of_range (by omega) (by omega)
      have hi : addInt 0 (subInt binSize overlap) = binSize - overlap := by
        rw [hs, addInt_of_range (by omega) (by omega)]; omega
      rw [hi]
      unfold chunkLoop
      rw [if_pos (by omega)]
      simp only
      rw [if_neg (by omega)]
    · rfl

/-- An empty buffer with `0 ≤ overlap < binSize` gives the empty spectrogram. -/
theorem GetSpectrogram_nil (fftMag : List ℚ → List ℚ) (binSize overlap : Int)
    (hb : binSize < 2 ^ 63) (h0 : 0 ≤ overlap) (h1 : overlap < binSize) :
    GetSpectrogram fftMag [] binSize overlap = .ok [] := by
  have hm : 24 * (([] : List ℚ).length : Int) ≤ maxAlloc := by
    unfold maxAlloc
    decide
  have hsize : ((([] : List ℚ).length : Int)) + binSize < 2 ^ 63 := by
    simp only [List.length_nil, Nat.cast_zero]
    omega
  have hc := chunkAndNormaliseAudio_spec [] binSize overlap h0 h1 hsize hm
  have hs : subInt binSize overlap = binSize - overlap := subInt_of_range (by omega) (by omega)
  have hq : ((([] : List ℚ).length : Int) + (binSize - overlap) - 1) / (binSize - overlap)
      = 0 := by
    simp only [List.length_nil, Nat.cast_zero]
    apply Int.ediv_eq_zero_of_lt (by omega) (by omega)
  rw [hq] at hc
  rw [GetSpectrogram_eq_map fftMag [] binSize overlap _ (by rw [hs]; omega)
    (numChunks_accepted _ _ _ (by simp) h0 h1 hsize hm) hc]
  rfl

/-- For `binSize = overlap` the division of line 18 stops `GetSpectrogram`. -/
theorem GetSpectrogram_zero_step (fftMag : List ℚ → List ℚ) (buff : List ℚ) (binSize : Int) :
    GetSpectrogram fftMag buff binSize binSize = .error .divideByZero := by
  unfold GetSpectrogram
  simp only
  rw [if_pos (subInt_self binSize)]

/-- For a non-empty buffer and `binSize < overlap` (both machine integers) `GetSpectrogram`
stops in a `make` or in the slice expression. -/
theorem GetSpectrogram_neg_step (fftMag : List ℚ → List ℚ) (buff : List ℚ)
    (binSize overlap : Int) (hb : -(2 ^ 63) ≤ binSize ∧ binSize < 2 ^ 63)
    (ho : -(2 ^ 63) ≤ overlap ∧ overlap < 2 ^ 63)
    (hne : buff ≠ []) (hlt : binSize < overlap) :
    GetSpectrogram fftMag buff binSize overlap = .error .makeSliceCap ∨
      GetSpectrogram fftMag buff binSize overlap = .error .sliceBounds := by
  have hstep : subInt binSize overlap ≠ 0 := subInt_ne_zero hb ho (by omega)
  cases hmk : makePanics 24
      (if divInt (subInt (addInt (subInt (buff.length : Int) overlap)
            (subInt binSize overlap)) 1) (subInt binSize overlap) < 0 then 0
        else divInt (subInt (addInt (subInt (buff.length : Int) overlap)
            (subInt binSize overlap)) 1) (subInt binSize overlap)) with
  | true =>
    left
    unfold GetSpectrogram
    simp only
    rw [if_neg hstep, hmk]
    rfl
  | false =>
    rcases chunkAndNormaliseAudio_neg_step buff binSize overlap hb ho hne hlt with h | h
    · left
      unfold GetSpectrogram
      simp only
      rw [if_neg hstep, hmk, h]
      rfl
    · right
      unfold GetSpectrogram
      simp only
      rw [if_neg hstep, hmk, h]
      rfl

/-- A fault of `GetSpectrogram` is the fault of `GetFingerPrint` and of `GetFingerPrint2`. -/
theorem GetFingerPrint_error (fftMag : List ℚ → List ℚ) (buff : List ℚ)
    (binSize overlap hashTopN maxTokenTimeDiff tokenPerWindow : Int) (e : Fault)
    (h : GetSpectrogram fftMag buff binSize overlap = .error e) :
    GetFingerPrint fftMag buff binSize overlap hashTopN maxTokenTimeDiff = .error e ∧
    GetFingerPrint2 fftMag buff binSize overlap hashTopN maxTokenTimeDiff tokenPerWindow
      = .error e := by
  constructor
  · unfold GetFingerPrint; rw [h]; rfl
  · unfold GetFingerPrint2; rw [h]; rfl

/-- On the empty spectrogram `GetFingerPrint` stops in `make` for a negative `hashTopN` and
otherwise, within the limit of `make`, returns the fingerprint without tokens and hashes;
`GetFingerPrint2` stops at `spectrogram[0]`. -/
theorem GetFingerPrint_of_nil (fftMag : List ℚ → List ℚ) (buff : List ℚ)
    (binSize overlap hashTopN maxTokenTimeDiff tokenPerWindow : Int)
    (h : GetSpectrogram fftMag buff binSize overlap = .ok []) :
    (hashTopN < 0 →
      GetFingerPrint fftMag buff binSize overlap hashTopN maxTokenTimeDiff
        = .error .makeSliceCap) ∧
    (0 ≤ hashTopN → 24 * hashTopN ≤ maxAlloc →
      GetFingerPrint fftMag buff binSize overlap hashTopN maxTokenTimeDiff = .ok ⟨[], ∅⟩) ∧
    GetFingerPrint2 fftMag buff binSize overlap hashTopN maxTokenTimeDiff tokenPerWindow
      = .error .indexOutOfRange := by
  refine ⟨?_, ?_, ?_⟩
  · intro hn
    have hp : makePanics 24 hashTopN = true := by
      unfold makePanics
      rw [decide_eq_true_iff]
      exact Or.inl hn
    unfold GetFingerPrint
    rw [h]
    simp only [Except.bind, bind, hp, if_true]
  · intro h0 hm
    have hp : makePanics 24 hashTopN = false := by
      unfold makePanics
      rw [decide_eq_false_iff_not]
      omega
    unfold GetFingerPrint
    rw [h]
    simp only [Except.bind, bind, hp]
    rfl
  · unfold GetFingerPrint2
    rw [h]
    rfl

/-- With a positive step the chunk loop does not run out of its iteration bound: an index that
wrapped to a negative value stops the loop at the slice expression. -/
theorem chunkLoop_ne_fuelExhausted (fuel : Nat) (pcm : List ℚ) (binSize stepSize i : Int)
    (res : List (List ℚ)) (hstep : 1 ≤ stepSize) (hs : stepSize < 2 ^ 63)
    (hi : -(2 ^ 63) ≤ i ∧ i < 2 ^ 63) (hf : 0 < fuel)
    (hfuel : 0 ≤ i → (pcm.length : Int) < i + fuel) :
    chunkLoop fuel pcm binSize stepSize i res ≠ .error .fuelExhausted := by
  induction fuel generalizing i res with
  | zero => omega
  | succ n ih =>
    unfold chunkLoop
    split
    · next hlt =>
      simp only
      split
      · next hc =>
        have h0 := hfuel hc.1
        push_cast at h0
        apply ih _ _ (wrap64_range _) (by omega)
        intro hnn
        change 0 ≤ wrap64 (i + stepSize) at hnn
        change (pcm.length : Int) < wrap64 (i + stepSize) + (n : Int)
        unfold wrap64 at hnn ⊢
        omega
      · intro h; cases h
    · intro h; cases h

/-- The iteration bound of `chunkAndNormaliseAudio` is never exhausted, whatever the
arguments. -/
theorem chunkAndNormaliseAudio_ne_fuelExhausted (pcm : List ℚ) (binSize overlap : Int) :
    chunkAndNormaliseAudio pcm binSize overlap ≠ .error .fuelExhausted := by
  have hr := wrap64_range (binSize - overlap)
  unfold chunkAndNormaliseAudio
  simp only
  split
  · intro h; cases h
  · next hne =>
    split
    · intro h; cases h
    · by_cases hpos : 1 ≤ subInt binSize overlap
      · exact chunkLoop_ne_fuelExhausted _ _ _ _ _ _ hpos hr.2 (by omega) (by omega)
          (by intro _; push_cast; omega)
      · have hneg : subInt binSize overlap < 0 := by omega
        have hr1 : -(2 ^ 63) ≤ subInt binSize overlap := hr.1
        have ha : addInt 0 (subInt binSize overlap) = subInt binSize overlap := by
          rw [addInt_of_range (by omega) (by omega)]; omega
        cases hl : pcm.length with
        | zero =>
          unfold chunkLoop
          rw [if_neg (by rw [hl]; simp)]
          intro h; cases h
        | succ n =>
          unfold chunkLoop
          rw [if_pos (by rw [hl]; push_cast; omega)]
          simp only
          split
          · rw [ha]
            unfold chunkLoop
            rw [if_pos (by omega)]
            simp only
            rw [if_neg (by omega)]
            intro h; cases h
          · intro h; cases h

/-- The iteration bound is never exhausted in `GetSpectrogram` either. -/
theorem GetSpectrogram_ne_fuelExhausted (fftMag : List ℚ → List ℚ) (buff : List ℚ)
    (binSize overlap : Int) :
    GetSpectrogram fftMag buff binSize overlap ≠ .error .fuelExhausted := by
  have hc := chunkAndNormaliseAudio_ne_fuelExhausted buff binSize overlap
  by_cases hstep : subInt binSize overlap = 0
  · unfold GetSpectrogram
    simp only
    rw [if_pos hstep]
    intro h; cases h
  · cases hmk : makePanics 24
        (if divInt (subInt (addInt (subInt (buff.length : Int) overlap)
              (subInt binSize overlap)) 1) (subInt binSize overlap) < 0 then 0
          else divInt (subInt (addInt (subInt (buff.length : Int) overlap)
              (subInt binSize overlap)) 1) (subInt binSize overlap)) with
    | true =>
      unfold GetSpectrogram
      simp only
      rw [if_neg hstep, hmk]
      intro h; cases h
    | false =>
      unfold GetSpectrogram
      simp only
      rw [if_neg hstep, hmk]
      cases hch : chunkAndNormaliseAudio buff binSize overlap with
      | error e =>
        intro h
        apply hc
        rw [hch]
        exact h
      | ok chunks => intro h; cases h

/-! ## Lemmas: the downsampling step -/

/-- The function is the fold of `magStep` over the indexed magnitudes. -/
theorem complex128ArrToMagArr_eq_foldl (mags : List ℚ) :
    complex128ArrToMagArr mags =
      mags.enum.foldl magStep (List.replicate (mags.length / 5 + 1) 0) := by
  rfl

theorem magStep_length (res : List ℚ) (ic : Nat × ℚ) : (magStep res ic).length = res.length := by
  unfold magStep
  split <;> simp

theorem magStep_getD (res : List ℚ) (ic : Nat × ℚ) (k : Nat) (hk : k % 5 ≠ 4)
    (hlen : k < res.length) :
    (magStep res ic).getD k 0 = res.getD k 0 + if ic.1 / 5 = k then ic.2 else 0 := by
  unfold magStep
  split
  · next h =>
    have hne : ic.1 / 5 ≠ k := by omega
    simp only [List.getD_eq_getElem?_getD, List.getElem?_set, if_neg hne, List.length_set]
    simp
  · next h =>
    by_cases hb : ic.1 / 5 = k
    · rw [hb, if_pos rfl]
      simp only [List.getD_eq_getElem?_getD, List.getElem?_set, if_pos rfl, if_pos hlen]
      simp
    · simp only [List.getD_eq_getElem?_getD, List.getElem?_set, if_neg hb]
      simp

theorem foldl_magStep_length (l : List (Nat × ℚ)) (res : List ℚ) :
    (l.foldl magStep res).length = res.length := by
  induction l generalizing res with
  | nil => rfl
  | cons a l ih => rw [List.foldl_cons, ih, magStep_length]

theorem foldl_magStep_getD (l : List (Nat × ℚ)) (res : List ℚ) (k : Nat) (hk : k % 5 ≠ 4)
    (hlen : k < res.length) :
    (l.foldl magStep res).getD k 0 = res.getD k 0 +
      ((l.filter fun (p : Nat × ℚ) => decide (5 * k ≤ p.1 ∧ p.1 < 5 * k + 5)).map
        Prod.snd).sum := by
  induction l generalizing res with
  | nil => simp
  | cons a l ih =>
    rw [List.foldl_cons, ih _ (by rw [magStep_length]; exact hlen), magStep_getD res a k hk hlen]
    by_cases hb : a.1 / 5 = k
    · have hd : 5 * k ≤ a.1 ∧ a.1 < 5 * k + 5 := by omega
      rw [if_pos hb, List.filter_cons]
      simp only [hd, and_self, decide_True, if_true, List.map_cons, List.sum_cons]
      ring
    · have hd : ¬ (5 * k ≤ a.1 ∧ a.1 < 5 * k + 5) := by omega
      rw [if_neg hb, List.filter_cons]
      simp only [hd, decide_False, Bool.false_eq_true, if_false]
      ring

/-- For a group index `k` with `k % 5 ≠ 4` the output of `complex128ArrToMagArr` holds the plain
sum of the `k`-th group: the division of line 51 is never applied to it. -/
theorem complex128ArrToMagArr_getElem_of_mod_ne (mags : List ℚ) (k : Nat) (hk : k % 5 ≠ 4)
    (hlen : k < mags.length / 5 + 1) :
    (complex128ArrToMagArr mags)[k]? = some (groupSum mags k) := by
  have hl : k < (complex128ArrToMagArr mags).length := by
    rw [complex128ArrToMagArr_length]; exact hlen
  have h := foldl_magStep_getD mags.enum (List.replicate (mags.length / 5 + 1) 0) k hk
    (by simpa using hlen)
  rw [← complex128ArrToMagArr_eq_foldl] at h
  rw [List.getD_eq_getElem _ _ hl] at h
  rw [List.getElem?_eq_getElem hl, h]
  unfold groupSum
  simp [List.getD_eq_getElem?_getD, List.getElem?_replicate, hlen]

/-! ## Theorems -/

/-- C1: every value of the hash set built by the hashing stage of `GetFingerPrint2` is
`ComputeTokenPairHash t1 t2` for tokens at positions `i ≤ j` whose frequencies differ and whose
time gap `absInt (t2.Time - t1.Time)` is at most `maxTokenTimeDiff`; hence when every pair of
positions `i ≤ j` has equal frequencies or a time gap above `maxTokenTimeDiff`, no hash is
produced at all. -/
theorem hashStage2_sound (tokens : List Token) (maxTokenTimeDiff : Int) :
    (∀ h ∈ hashStage2 tokens maxTokenTimeDiff,
      ∃ (i j : Nat) (t1 t2 : Token), i ≤ j ∧ tokens[i]? = some t1 ∧ tokens[j]? = some t2 ∧
        t1.Freq ≠ t2.Freq ∧ absInt (subInt t2.Time t1.Time) ≤ maxTokenTimeDiff ∧
        h = ComputeTokenPairHash t1 t2) ∧
    ((∀ (i j : Nat) (t1 t2 : Token), i ≤ j → tokens[i]? = some t1 → tokens[j]? = some t2 →
        t1.Freq = t2.Freq ∨ absInt (subInt t2.Time t1.Time) > maxTokenTimeDiff) →
      hashStage2 tokens maxTokenTimeDiff = ∅) := by
  have key : ∀ h ∈ hashStage2 tokens maxTokenTimeDiff,
      ∃ (i j : Nat) (t1 t2 : Token), i ≤ j ∧ tokens[i]? = some t1 ∧ tokens[j]? = some t2 ∧
        t1.Freq ≠ t2.Freq ∧ absInt (subInt t2.Time t1.Time) ≤ maxTokenTimeDiff ∧
        h = ComputeTokenPairHash t1 t2 := by
    intro h hh
    rcases hashOuter2_sound maxTokenTimeDiff tokens ∅ h hh with h1 | h1
    · simp at h1
    · exact h1
  refine ⟨key, fun hnone => ?_⟩
  apply Finset.eq_empty_of_forall_not_mem
  intro h hh
  obtain ⟨i, j, t1, t2, hij, hi, hj, hf, hg, -⟩ := key h hh
  rcases hnone i j t1 t2 hij hi hj with h1 | h1
  · exact hf h1
  · omega

/-- Witness for C1: in `[(0,3), (1,5), (9,7)]` with `maxTokenTimeDiff = 2` the value `6` of the
hash set comes from a qualifying pair. -/
theorem hashStage2_sound_witness :
    (6 : Int) ∈ hashStage2 [⟨0, 3, 1⟩, ⟨1, 5, 2⟩, ⟨9, 7, 1⟩] 2 ∧
    ∃ (i j : Nat) (t1 t2 : Token), i ≤ j ∧
      ([⟨0, 3, 1⟩, ⟨1, 5, 2⟩, ⟨9, 7, 1⟩] : List Token)[i]? = some t1 ∧
      ([⟨0, 3, 1⟩, ⟨1, 5, 2⟩, ⟨9, 7, 1⟩] : List Token)[j]? = some t2 ∧
      t1.Freq ≠ t2.Freq ∧ absInt (subInt t2.Time t1.Time) ≤ 2 ∧
      (6 : Int) = ComputeTokenPairHash t1 t2 :=
  ⟨by decide, (hashStage2_sound [⟨0, 3, 1⟩, ⟨1, 5, 2⟩, ⟨9, 7, 1⟩] 2).1 6 (by decide)⟩

/-- C2: for tokens in non-decreasing time order (times being non-negative `int` values), the
hash set built by the hashing stage of `GetFingerPrint2` is exactly the set of
`ComputeTokenPairHash t1 t2` over the pairs at positions `i ≤ j` with `t1.Freq ≠ t2.Freq` and
`|t2.Time - t1.Time| ≤ maxTokenTimeDiff`: the `break` loses no qualifying pair.  The hash of such
a pair is the product `t1.Freq * |t1.Freq - t2.Freq| * |t2.Time - t1.Time|` whenever the
frequencies are non-negative and the product fits in an `int`. -/
theorem hashStage2_exact_of_sorted (tokens : List Token) (maxTokenTimeDiff : Int)
    (hrange : ∀ t ∈ tokens, 0 ≤ t.Time ∧ t.Time < 2 ^ 63)
    (hsorted : tokens.Pairwise (fun a b => a.Time ≤ b.Time)) :
    (∀ h : Int, h ∈ hashStage2 tokens maxTokenTimeDiff ↔
      ∃ (i j : Nat) (t1 t2 : Token), i ≤ j ∧ tokens[i]? = some t1 ∧ tokens[j]? = some t2 ∧
        t1.Freq ≠ t2.Freq ∧ |t2.Time - t1.Time| ≤ maxTokenTimeDiff ∧
        h = ComputeTokenPairHash t1 t2) ∧
    (∀ t1 ∈ tokens, ∀ t2 ∈ tokens,
      0 ≤ t1.Freq ∧ t1.Freq < 2 ^ 63 → 0 ≤ t2.Freq ∧ t2.Freq < 2 ^ 63 →
      t1.Freq * |t1.Freq - t2.Freq| * |t2.Time - t1.Time| < 2 ^ 63 →
      ComputeTokenPairHash t1 t2 = t1.Freq * |t1.Freq - t2.Freq| * |t2.Time - t1.Time|) := by
  refine ⟨fun h => ⟨fun hh => ?_, ?_⟩, ?_⟩
  · have hmem : h ∈ hashOuter2 maxTokenTimeDiff tokens ∅ := hh
    obtain ⟨i, j, t1, t2, hij, hi, hj, hf, hg, he⟩ :=
      (hashOuter2_sound maxTokenTimeDiff tokens ∅ h hmem).resolve_left (by simp)
    refine ⟨i, j, t1, t2, hij, hi, hj, hf, ?_, he⟩
    rw [absInt_subInt_of_nonneg (hrange t2 (List.getElem?_mem hj))
      (hrange t1 (List.getElem?_mem hi))] at hg
    exact hg
  · rintro ⟨i, j, t1, t2, hij, hi, hj, hf, hg, he⟩
    rw [he]
    exact hashOuter2_complete maxTokenTimeDiff tokens hrange hsorted ∅ i j t1 t2 hij hi hj hf hg
  · intro t1 h1 t2 h2 hF1 hF2 hp
    exact ComputeTokenPairHash_eq_of_range t1 t2 (hrange t1 h1) (hrange t2 h2) hF1 hF2 hp

/-- Witness for C2: the time-ordered tokens `[(0,3), (1,5), (9,7)]` with
`maxTokenTimeDiff = 2`. -/
theorem hashStage2_exact_of_sorted_witness :
    (∀ t ∈ ([⟨0, 3, 1⟩, ⟨1, 5, 2⟩, ⟨9, 7, 1⟩] : List Token), 0 ≤ t.Time ∧ t.Time < 2 ^ 63) ∧
    ([⟨0, 3, 1⟩, ⟨1, 5, 2⟩, ⟨9, 7, 1⟩] : List Token).Pairwise (fun a b => a.Time ≤ b.Time) ∧
    hashStage2 [⟨0, 3, 1⟩, ⟨1, 5, 2⟩, ⟨9, 7, 1⟩] 2 = {6} ∧
    ((6 : Int) ∈ hashStage2 [⟨0, 3, 1⟩, ⟨1, 5, 2⟩, ⟨9, 7, 1⟩] 2 ↔
      ∃ (i j : Nat) (t1 t2 : Token), i ≤ j ∧
        ([⟨0, 3, 1⟩, ⟨1, 5, 2⟩, ⟨9, 7, 1⟩] : List Token)[i]? = some t1 ∧
        ([⟨0, 3, 1⟩, ⟨1, 5, 2⟩, ⟨9, 7, 1⟩] : List Token)[j]? = some t2 ∧
        t1.Freq ≠ t2.Freq ∧ |t2.Time - t1.Time| ≤ 2 ∧ (6 : Int) = ComputeTokenPairHash t1 t2) :=
  ⟨by decide, by decide, by decide,
    (hashStage2_exact_of_sorted [⟨0, 3, 1⟩, ⟨1, 5, 2⟩, ⟨9, 7, 1⟩] 2 (by decide) (by decide)).1 6⟩

/-- C3: for a spectrogram whose frames all have the same length and `tokenPerWindow ≥ 1`,
`findPeaks2` returns (and on a non-empty spectrogram it does return) for each grid block of 10
frames by 200 bins at most `tokenPerWindow` tokens whose `(Time, Freq)` lie in that block; the
result is the concatenation of the tokens `out tw fw` kept for the scanned blocks, each of which
has `Time` and `Freq` inside the index range of its block and `Amp` equal to the spectrogram cell
at that position. -/
theorem findPeaks2_block_bounds (spectrogram : Spectrogram) (tokenPerWindow : Nat)
    (huniform : ∀ r1 ∈ spectrogram, ∀ r2 ∈ spectrogram, r1.length = r2.length)
    (hk : 1 ≤ tokenPerWindow) :
    (spectrogram ≠ [] → ∃ peaks, findPeaks2 spectrogram tokenPerWindow = .ok peaks) ∧
    ∀ peaks : List Token, findPeaks2 spectrogram tokenPerWindow = .ok peaks →
      (∀ tw fw : Nat, (peaks.filter (inBlock tw fw)).length ≤ tokenPerWindow) ∧
      (∀ tok ∈ peaks, ∃ (i j : Nat), tok = ⟨(i : Int), (j : Int), tok.Amp⟩ ∧
        cellAt spectrogram i j = some tok.Amp) ∧
      ∃ out : Nat → Nat → List Token,
        peaks = (gridBlocks spectrogram.length (spectrogram.getD 0 []).length).flatMap
          (fun b => out b.1 b.2) ∧
        ∀ tw fw : Nat, (out tw fw).length ≤ tokenPerWindow ∧
          ∀ tok ∈ out tw fw, inBlock tw fw tok = true := by
  cases hsg : spectrogram with
  | nil =>
    refine ⟨fun h => absurd rfl h, fun peaks hp => ?_⟩
    simp [findPeaks2] at hp
  | cons frame0 tail =>
    rw [← hsg]
    have h0 : spectrogram[0]? = some frame0 := by rw [hsg]; simp
    have hg : (spectrogram.getD 0 []).length = frame0.length := by rw [hsg]; simp
    have huni : ∀ row ∈ spectrogram, row.length = frame0.length := fun row hrow =>
      huniform row hrow frame0 (by rw [hsg]; exact List.mem_cons_self _ _)
    obtain ⟨out, rest, hres, hall⟩ :=
      findPeaks2_structure spectrogram tokenPerWindow hk frame0 h0 huni
    refine ⟨fun _ => ⟨_, hres⟩, fun peaks hp => ?_⟩
    rw [hres] at hp
    have hpe : peaks = (gridBlocks spectrogram.length frame0.length).flatMap
        fun b => out b.1 b.2 := (Except.ok.inj hp).symm
    have hin : ∀ tw fw : Nat, ∀ tok ∈ out tw fw, inBlock tw fw tok = true := fun tw fw tok ht =>
      inBlock_of_mem_blockCells spectrogram frame0.length tw fw tok
        (((hall tw fw).2.1).subset (List.mem_append_left _ ht))
    have hlen : ∀ tw fw : Nat, (out tw fw).length ≤ tokenPerWindow := fun tw fw => by
      rw [(hall tw fw).1]; exact Nat.min_le_left _ _
    refine ⟨?_, ?_, out, by rw [hg]; exact hpe, fun tw fw => ⟨hlen tw fw, hin tw fw⟩⟩
    · intro tw fw
      rw [hpe]
      refine le_trans (length_filter_flatMap_le (fun b : Nat × Nat => out b.1 b.2) _ _
        (nodup_gridBlocks _ _) (tw, fw) ?_) ?_
      · intro b _ hb
        rw [List.filter_eq_nil_iff]
        intro tok htok hcon
        exact hb (inBlock_unique b.1 b.2 tw fw tok (hin b.1 b.2 tok htok) hcon)
      · exact le_trans (List.length_filter_le _ _) (hlen tw fw)
    · intro tok htok
      rw [hpe, List.mem_flatMap] at htok
      obtain ⟨b, -, hb⟩ := htok
      exact cellAt_of_mem_blockCells spectrogram frame0.length huni _ _ _ _ (by omega) (by omega)
        tok (((hall b.1 b.2).2.1).subset (List.mem_append_left _ hb))

/-- Witness for C3: the 10 by 200 spectrogram `gridExample` with `tokenPerWindow = 1`. -/
theorem findPeaks2_block_bounds_witness :
    ∃ peaks, findPeaks2 gridExample 1 = .ok peaks ∧
      (∀ tw fw : Nat, (peaks.filter (inBlock tw fw)).length ≤ 1) ∧
      (∀ tok ∈ peaks, ∃ (i j : Nat), tok = ⟨(i : Int), (j : Int), tok.Amp⟩ ∧
        cellAt gridExample i j = some tok.Amp) := by
  have h := findPeaks2_block_bounds gridExample 1 gridExample_uniform (by decide)
  obtain ⟨peaks, hp⟩ := h.1 gridExample_ne_nil
  exact ⟨peaks, hp, (h.2 peaks hp).1, (h.2 peaks hp).2.1⟩

/-- C4 at the failing input: in an index with two songs named `A` that both store the hash 5,
the query `{5}` counts 2 votes, yet `findMatchingSong` returns the single score `A ↦ 1/2`, so
the scores sum to `1/2`; the second loop gives the same map and total whichever of the two
entries of `matchCounts` it visits first. -/
theorem findMatchingSong_duplicate_names :
    totalVotes duplicateNameIndex [5] = 2 ∧
    findMatchingSong duplicateNameIndex [5] = [("A", 1 / 2)] ∧
    ((findMatchingSong duplicateNameIndex [5]).map Prod.snd).sum = 1 / 2 ∧
    collectScores duplicateNameIndex [(1, 1), (2, 1)] =
      collectScores duplicateNameIndex [(2, 1), (1, 1)] := by
  have hm : countMatches duplicateNameIndex [5] = [(1, 1), (2, 1)] := by decide
  have hc : collectScores duplicateNameIndex [(1, 1), (2, 1)] = ([("A", ((1 : Nat) : ℚ))], 2) := by
    rfl
  have hf : findMatchingSong duplicateNameIndex [5] = [("A", 1 / 2)] := by
    unfold findMatchingSong
    rw [hm, hc]
    simp
  refine ⟨?_, hf, ?_, by rfl⟩
  · unfold totalVotes
    rw [hm, hc]
  · rw [hf]
    simp

/-- Counterexample to C5: nine samples with `binSize = 7` and `overlap = 0` (the FFT taken as
the identity, which preserves length) give a spectrogram of two frames, of 2 and of 1 values,
while `⌈7 / 5⌉ = 2`. -/
theorem GetSpectrogram_frame_length_counterexample :
    ∃ spectrogram : Spectrogram,
      GetSpectrogram (fun w => w) [1, 2, 3, 4, 5, 6, 7, 8, 9] 7 0 = .ok spectrogram ∧
      spectrogram.map List.length = [2, 1] ∧
      ¬ ∀ frame ∈ spectrogram, frame.length = (7 + 4) / 5 := by
  have hc : chunkAndNormaliseAudio [1, 2, 3, 4, 5, 6, 7, 8, 9] 7 0
      = .ok [[1, 2, 3, 4, 5, 6, 7], [8]] := by rfl
  have hl : ([[1, 2, 3, 4, 5, 6, 7], [8]].map fun audioBin : List ℚ =>
      complex128ArrToMagArr ((fun w => w) audioBin)).map List.length = [2, 1] := by
    simp only [List.map_cons, List.map_nil, complex128ArrToMagArr_length]
    rfl
  refine ⟨_, GetSpectrogram_eq_map _ _ 7 0 _ (by decide) (by rfl) hc, hl, ?_⟩
  intro h
  have h2 := h (complex128ArrToMagArr [8]) (by simp)
  rw [complex128ArrToMagArr_length] at h2
  simp at h2

/-- C5, amended: for a non-empty buffer of `N` samples and `0 ≤ overlap < binSize` (the FFT
preserving length), with `N + binSize < 2 ^ 63` so that no index overflows and `24 * N` bytes
within the limit `maxAlloc` of `make`, `GetSpectrogram` returns one frame per window of
`chunkAndNormaliseAudio`, at least one; a window has `w ≤ binSize` samples, and when `w` is not
a multiple of 5 its frame has exactly `⌈w / 5⌉` values. -/
theorem GetSpectrogram_frame_lengths (fftMag : List ℚ → List ℚ)
    (hfft : ∀ w, (fftMag w).length = w.length) (buff : List ℚ) (binSize overlap : Int)
    (hne : buff ≠ []) (h0 : 0 ≤ overlap) (h1 : overlap < binSize)
    (hsize : (buff.length : Int) + binSize < 2 ^ 63)
    (hmem : 24 * (buff.length : Int) ≤ maxAlloc) :
    ∃ (chunks : List (List ℚ)) (spectrogram : Spectrogram),
      chunkAndNormaliseAudio buff binSize overlap = .ok chunks ∧
      GetSpectrogram fftMag buff binSize overlap = .ok spectrogram ∧
      spectrogram ≠ [] ∧ spectrogram.length = chunks.length ∧
      ∀ (k : Nat) (w frame : List ℚ), chunks[k]? = some w → spectrogram[k]? = some frame →
        (w.length : Int) ≤ binSize ∧ (w.length % 5 ≠ 0 → frame.length = (w.length + 4) / 5) := by
  have hc := chunkAndNormaliseAudio_spec buff binSize overlap h0 h1 hsize hmem
  have hs : subInt binSize overlap = binSize - overlap := subInt_of_range (by omega) (by omega)
  refine ⟨_, _, hc, GetSpectrogram_eq_map fftMag buff binSize overlap _ (by rw [hs]; omega)
    (numChunks_accepted _ _ _ (by omega) h0 h1 hsize hmem) hc, ?_, ?_, ?_⟩
  · have hlen : 0 < buff.length := List.length_pos.mpr hne
    have hq : 1 ≤ ((buff.length : Int) + (binSize - overlap) - 1) / (binSize - overlap) := by
      apply Int.le_ediv_of_mul_le (by omega)
      omega
    intro hnil
    have := congrArg List.length hnil
    simp only [List.length_map, List.length_range, List.length_nil] at this
    omega
  · simp
  · intro k w frame hw hf
    rw [List.getElem?_map, hw] at hf
    simp only [Option.map_some', Option.some.injEq] at hf
    rw [List.getElem?_map] at hw
    constructor
    · cases hr : (List.range (((buff.length : Int) + (binSize - overlap) - 1) /
          (binSize - overlap)).toNat)[k]? with
      | none => rw [hr] at hw; simp at hw
      | some k1 =>
        rw [hr] at hw
        simp only [Option.map_some', Option.some.injEq] at hw
        rw [← hw]
        exact windowAt_length_le buff binSize _ (by omega)
          (mul_nonneg (Int.ofNat_nonneg _) (by omega)) hsize
    · intro hmod
      rw [← hf, complex128ArrToMagArr_length, hfft]
      omega

/-- Witness for the amended C5: the buffer `[1, …, 9]` with `binSize = 7`, `overlap = 0` and the
identity as FFT. -/
theorem GetSpectrogram_frame_lengths_witness :
    ∃ (chunks : List (List ℚ)) (spectrogram : Spectrogram),
      chunkAndNormaliseAudio [1, 2, 3, 4, 5, 6, 7, 8, 9] 7 0 = .ok chunks ∧
      GetSpectrogram (fun w => w) [1, 2, 3, 4, 5, 6, 7, 8, 9] 7 0 = .ok spectrogram ∧
      spectrogram ≠ [] ∧ spectrogram.length = chunks.length ∧
      ∀ (k : Nat) (w frame : List ℚ), chunks[k]? = some w → spectrogram[k]? = some frame →
        (w.length : Int) ≤ 7 ∧ (w.length % 5 ≠ 0 → frame.length = (w.length + 4) / 5) :=
  GetSpectrogram_frame_lengths (fun w => w) (fun _ => rfl) [1, 2, 3, 4, 5, 6, 7, 8, 9] 7 0
    (by simp) (by decide) (by decide) (by decide) (by decide)

/-- C6 at the failing input: for the samples `[1, 2, 3]` with `binSize = 2` and `overlap = 0`
`chunkAndNormaliseAudio` returns the windows `[1, 2]` and `[]`; the last sample is in no
window, where the claim has the windows `[1, 2]` and `[3]`. -/
theorem chunkAndNormaliseAudio_drops_last_sample :
    chunkAndNormaliseAudio [1, 2, 3] 2 0 = .ok [[1, 2], []] ∧
      ∀ windows : List (List ℚ), chunkAndNormaliseAudio [1, 2, 3] 2 0 = .ok windows →
        ∀ w ∈ windows, (3 : ℚ) ∉ w := by
  have h : chunkAndNormaliseAudio [1, 2, 3] 2 0 = .ok [[1, 2], []] := by rfl
  refine ⟨h, fun windows hw w hmem => ?_⟩
  rw [h] at hw
  rw [← Except.ok.inj hw] at hmem
  rcases List.mem_cons.mp hmem with h1 | h1
  · rw [h1]; decide
  · rw [List.mem_singleton.mp h1]; simp

/-- Counterexample to C7: a spectrogram of one frame with one bin yields no token. -/
theorem findPeaks2_partial_block_counterexample :
    findPeaks2 [[1]] 1 = .ok [] ∧
      ¬ ∃ (peaks : List Token) (tok : Token), findPeaks2 [[1]] 1 = .ok peaks ∧ tok ∈ peaks := by
  have h : findPeaks2 [[1]] 1 = .ok [] := by rfl
  refine ⟨h, ?_⟩
  rintro ⟨peaks, tok, hp, ht⟩
  rw [h] at hp
  rw [← Except.ok.inj hp] at ht
  simp at ht

/-- C7, amended: on a non-empty spectrogram with frames of equal length and for
`tokenPerWindow ≥ 1`, `findPeaks2` scans only the `⌊frames/10⌋ × ⌊bins/200⌋` blocks of its two
loops: every returned token has `Time < 10 * ⌊frames/10⌋` and `Freq < 200 * ⌊bins/200⌋`, so
the frames and bins of trailing partial blocks contribute no token, and a spectrogram with
fewer than 10 frames or fewer than 200 bins yields no token. -/
theorem findPeaks2_full_blocks_only (spectrogram : Spectrogram) (tokenPerWindow : Nat)
    (hne : spectrogram ≠ [])
    (huniform : ∀ r1 ∈ spectrogram, ∀ r2 ∈ spectrogram, r1.length = r2.length)
    (hk : 1 ≤ tokenPerWindow) :
    ∃ peaks : List Token, findPeaks2 spectrogram tokenPerWindow = .ok peaks ∧
      (∀ tok ∈ peaks,
        tok.Time < ((SIZE_TIME_WINDOWS * (spectrogram.length / SIZE_TIME_WINDOWS) : Nat) : Int) ∧
        tok.Freq < ((SIZE_FREQ_WINDOWS *
          ((spectrogram.getD 0 []).length / SIZE_FREQ_WINDOWS) : Nat) : Int)) ∧
      (spectrogram.length < SIZE_TIME_WINDOWS ∨
        (spectrogram.getD 0 []).length < SIZE_FREQ_WINDOWS → peaks = []) := by
  obtain ⟨frame0, tail, hsg⟩ := List.exists_cons_of_ne_nil hne
  have h0 : spectrogram[0]? = some frame0 := by rw [hsg]; simp
  have hg : (spectrogram.getD 0 []).length = frame0.length := by rw [hsg]; simp
  have huni : ∀ row ∈ spectrogram, row.length = frame0.length := fun row hrow =>
    huniform row hrow frame0 (by rw [hsg]; exact List.mem_cons_self _ _)
  obtain ⟨out, rest, hres, hall⟩ :=
    findPeaks2_structure spectrogram tokenPerWindow hk frame0 h0 huni
  rw [hg]
  refine ⟨_, hres, ?_, ?_⟩
  · intro tok htok
    rw [List.mem_flatMap] at htok
    obtain ⟨⟨tw, fw⟩, hb, hmem⟩ := htok
    rw [mem_gridBlocks] at hb
    have hin := inBlock_of_mem_blockCells spectrogram frame0.length tw fw tok
      (((hall tw fw).2.1).subset (List.mem_append_left _ hmem))
    unfold inBlock at hin
    simp only [decide_eq_true_eq] at hin
    have h1 : (tw + 1) * SIZE_TIME_WINDOWS ≤
        SIZE_TIME_WINDOWS * (spectrogram.length / SIZE_TIME_WINDOWS) := by
      rw [Nat.mul_comm]; exact Nat.mul_le_mul_left _ hb.1
    have h2 : (fw + 1) * SIZE_FREQ_WINDOWS ≤
        SIZE_FREQ_WINDOWS * (frame0.length / SIZE_FREQ_WINDOWS) := by
      rw [Nat.mul_comm]; exact Nat.mul_le_mul_left _ hb.2
    constructor
    · exact lt_of_lt_of_le hin.2.1 (by exact_mod_cast h1)
    · exact lt_of_lt_of_le hin.2.2.2 (by exact_mod_cast h2)
  · intro hsmall
    have : gridBlocks spectrogram.length frame0.length = [] := by
      unfold gridBlocks
      rcases hsmall with h1 | h1
      · rw [Nat.div_eq_of_lt h1]; rfl
      · rw [Nat.div_eq_of_lt h1]; simp
    rw [this]; rfl

/-- Witness for the amended C7: the spectrogram `[[1, 2, 3], [4, 5, 6]]`. -/
theorem findPeaks2_full_blocks_only_witness :
    ([[1, 2, 3], [4, 5, 6]] : Spectrogram) ≠ [] ∧
    (∀ r1 ∈ ([[1, 2, 3], [4, 5, 6]] : Spectrogram), ∀ r2 ∈ ([[1, 2, 3], [4, 5, 6]] : Spectrogram),
      r1.length = r2.length) ∧
    findPeaks2 [[1, 2, 3], [4, 5, 6]] 2 = .ok [] := by
  refine ⟨by decide, by decide, ?_⟩
  obtain ⟨peaks, hp, -, hnil⟩ :=
    findPeaks2_full_blocks_only [[1, 2, 3], [4, 5, 6]] 2 (by decide) (by decide) (by decide)
  rw [hp, hnil (Or.inl (by decide))]

/-- Counterexample to C8: on an empty buffer with `binSize = 2`, `overlap = 1`,
`GetSpectrogram` returns the empty spectrogram and `GetFingerPrint` an empty fingerprint, and
`GetFingerPrint2` stops with an index out of range; with `binSize = overlap` and with
`binSize < overlap` `GetSpectrogram` stops with a run-time fault. -/
theorem GetSpectrogram_no_validation_counterexample :
    GetSpectrogram (fun w => w) [] 2 1 = .ok [] ∧
    (∃ fp, GetFingerPrint (fun w => w) [] 2 1 1000 25 = .ok fp ∧ fp.Tokens = [] ∧ fp.Hashes = ∅) ∧
    GetFingerPrint2 (fun w => w) [] 2 1 1000 25 3 = .error .indexOutOfRange ∧
    GetSpectrogram (fun w => w) [1, 2, 3] 2 2 = .error .divideByZero ∧
    GetSpectrogram (fun w => w) [1, 2, 3] 1 2 = .error .makeSliceCap := by
  refine ⟨by rfl, ⟨_, by rfl, rfl, rfl⟩, by rfl, by rfl, by rfl⟩

/-- C8, amended: no input is validated, the functions return a value or stop with a run-time
fault.  For `binSize` and `overlap` machine integers: on an empty buffer with
`0 ≤ overlap < binSize`, `GetSpectrogram` returns the empty spectrogram, `GetFingerPrint`
returns a fingerprint without tokens and hashes when `make` accepts the capacity `hashTopN`
(`0 ≤ hashTopN` and `24 * hashTopN ≤ maxAlloc`) and stops in `make` when `hashTopN < 0`, and
`GetFingerPrint2` stops with an index out of range at `spectrogram[0]`; for
`binSize = overlap`, `GetSpectrogram`, `GetFingerPrint` and `GetFingerPrint2` stop with the
run-time fault integer divide by zero; for a non-empty buffer and `binSize < overlap` they stop
with a run-time fault of `make` or of the slice expression. -/
theorem GetSpectrogram_unvalidated (fftMag : List ℚ → List ℚ) (buff : List ℚ)
    (binSize overlap hashTopN maxTokenTimeDiff tokenPerWindow : Int)
    (hb : -(2 ^ 63) ≤ binSize ∧ binSize < 2 ^ 63)
    (ho : -(2 ^ 63) ≤ overlap ∧ overlap < 2 ^ 63) :
    (buff = [] → 0 ≤ overlap → overlap < binSize →
      GetSpectrogram fftMag buff binSize overlap = .ok [] ∧
      (0 ≤ hashTopN → 24 * hashTopN ≤ maxAlloc →
        ∃ fp, GetFingerPrint fftMag buff binSize overlap hashTopN maxTokenTimeDiff = .ok fp ∧
          fp.Tokens = [] ∧ fp.Hashes = ∅) ∧
      (hashTopN < 0 →
        GetFingerPrint fftMag buff binSize overlap hashTopN maxTokenTimeDiff
          = .error .makeSliceCap) ∧
      GetFingerPrint2 fftMag buff binSize overlap hashTopN maxTokenTimeDiff tokenPerWindow
        = .error .indexOutOfRange) ∧
    (binSize = overlap →
      GetSpectrogram fftMag buff binSize overlap = .error .divideByZero ∧
      GetFingerPrint fftMag buff binSize overlap hashTopN maxTokenTimeDiff
        = .error .divideByZero ∧
      GetFingerPrint2 fftMag buff binSize overlap hashTopN maxTokenTimeDiff tokenPerWindow
        = .error .divideByZero) ∧
    (buff ≠ [] → binSize < overlap →
      ∃ e : Fault, (e = .makeSliceCap ∨ e = .sliceBounds) ∧
        GetSpectrogram fftMag buff binSize overlap = .error e ∧
        GetFingerPrint fftMag buff binSize overlap hashTopN maxTokenTimeDiff = .error e ∧
        GetFingerPrint2 fftMag buff binSize overlap hashTopN maxTokenTimeDiff tokenPerWindow
          = .error e) := by
  refine ⟨?_, ?_, ?_⟩
  · intro hnil h0 h1
    subst hnil
    have hs := GetSpectrogram_nil fftMag binSize overlap hb.2 h0 h1
    have hf := GetFingerPrint_of_nil fftMag [] binSize overlap hashTopN maxTokenTimeDiff
      tokenPerWindow hs
    exact ⟨hs, fun hn hm => ⟨_, hf.2.1 hn hm, rfl, rfl⟩, hf.1, hf.2.2⟩
  · intro he
    subst he
    have hs := GetSpectrogram_zero_step fftMag buff binSize
    have hf := GetFingerPrint_error fftMag buff binSize binSize hashTopN maxTokenTimeDiff
      tokenPerWindow _ hs
    exact ⟨hs, hf.1, hf.2⟩
  · intro hne hlt
    rcases GetSpectrogram_neg_step fftMag buff binSize overlap hb ho hne hlt with hs | hs
    · have hf := GetFingerPrint_error fftMag buff binSize overlap hashTopN maxTokenTimeDiff
        tokenPerWindow _ hs
      exact ⟨_, Or.inl rfl, hs, hf.1, hf.2⟩
    · have hf := GetFingerPrint_error fftMag buff binSize overlap hashTopN maxTokenTimeDiff
        tokenPerWindow _ hs
      exact ⟨_, Or.inr rfl, hs, hf.1, hf.2⟩

/-- Witness for the amended C8: an empty buffer with `binSize = 7`, `overlap = 0`; the buffer
`[1, 2]` with `binSize = overlap = 3`; the buffer `[1, 2]` with `binSize = 3 < overlap = 7`. -/
theorem GetSpectrogram_unvalidated_witness :
    GetSpectrogram (fun w => w) [] 7 0 = .ok [] ∧
    GetSpectrogram (fun w => w) [1, 2] 3 3 = .error .divideByZero ∧
    ∃ e : Fault, (e = .makeSliceCap ∨ e = .sliceBounds) ∧
      GetSpectrogram (fun w => w) [1, 2] 3 7 = .error e :=
  ⟨((GetSpectrogram_unvalidated (fun w => w) [] 7 0 1000 25 3 (by decide) (by decide)).1 rfl
      (by decide) (by decide)).1,
   ((GetSpectrogram_unvalidated (fun w => w) [1, 2] 3 3 1000 25 3 (by decide)
      (by decide)).2.1 rfl).1,
   let ⟨e, he, hs, _⟩ := (GetSpectrogram_unvalidated (fun w => w) [1, 2] 3 7 1000 25 3
     (by decide) (by decide)).2.2 (by decide) (by decide)
   ⟨e, he, hs⟩⟩

/-- C9 at the failing input `gridExample` (10 frames by 200 bins, one full block) with
`tokenPerWindow = 1`: the single token returned has amplitude 0 and a `Time` below 9, although
cell `(9, 0)` of the same block has amplitude 1. -/
theorem findPeaks2_drops_last_frame :
    ∃ p : Token, findPeaks2 gridExample 1 = .ok [p] ∧ p.Amp = 0 ∧ p.Time < 9 ∧
      cellAt gridExample 9 0 = some 1 ∧ inBlock 0 0 ⟨9, 0, 1⟩ = true := by
  have hlen : gridExample.length = 10 := by simp [gridExample]
  have h0 : gridExample[0]? = some (List.replicate 200 0) := by simp [gridExample]
  have huni : ∀ row ∈ gridExample, row.length = (List.replicate 200 (0 : ℚ)).length := by
    intro row hrow
    exact gridExample_uniform row hrow _ (List.getElem?_mem h0)
  obtain ⟨out, rest, hres, hall⟩ :=
    findPeaks2_structure gridExample 1 (by decide) (List.replicate 200 0) h0 huni
  have hblocks : gridBlocks gridExample.length (List.replicate 200 (0 : ℚ)).length = [(0, 0)] := by
    rw [hlen, List.length_replicate]; rfl
  rw [hblocks] at hres
  simp only [List.flatMap_cons, List.flatMap_nil, List.append_nil] at hres
  obtain ⟨hl, hperm, -⟩ := hall 0 0
  rw [hlen, List.length_replicate] at hl hperm
  have hl1 : (out 0 0).length = 1 := by
    rw [hl]; simp [SIZE_TIME_WINDOWS, SIZE_FREQ_WINDOWS]
  obtain ⟨p, hp⟩ := List.length_eq_one.mp hl1
  refine ⟨p, by rw [hres, hp], ?_, ?_, ?_, by decide⟩
  · have hmem : p ∈ blockCells gridExample (0 * SIZE_TIME_WINDOWS)
        (min ((0 + 1) * SIZE_TIME_WINDOWS) (10 - 1)) (0 * SIZE_FREQ_WINDOWS)
        (min ((0 + 1) * SIZE_FREQ_WINDOWS) (200 - 1)) :=
      hperm.subset (List.mem_append_left _ (by rw [hp]; exact List.mem_singleton_self _))
    obtain ⟨i, j, -, hi, -, -, rfl⟩ := (mem_blockCells _ _ _ _ _ _).mp hmem
    simp only [SIZE_TIME_WINDOWS] at hi
    exact gridExample_getD i j (by omega)
  · have hmem : p ∈ blockCells gridExample (0 * SIZE_TIME_WINDOWS)
        (min ((0 + 1) * SIZE_TIME_WINDOWS) (10 - 1)) (0 * SIZE_FREQ_WINDOWS)
        (min ((0 + 1) * SIZE_FREQ_WINDOWS) (200 - 1)) :=
      hperm.subset (List.mem_append_left _ (by rw [hp]; exact List.mem_singleton_self _))
    obtain ⟨i, j, -, hi, -, -, rfl⟩ := (mem_blockCells _ _ _ _ _ _).mp hmem
    simp only [SIZE_TIME_WINDOWS] at hi
    show (i : Int) < 9
    omega
  · exact gridExample_cell_9_0

/-- C10: for `topN ≥ 1`, `findPeaks` returns `min topN c` tokens, `c` being the number of
candidate peaks (`candidatePeaks` lists each of them once); every returned token is a candidate
peak, a cell whose amplitude is strictly greater than that of every other cell of its frame
within 100 frequency bins; and no candidate peak left out has an amplitude strictly greater than
that of a returned token. -/
theorem findPeaks_topN (spectrogram : Spectrogram) (topN : Nat) (htop : 1 ≤ topN) :
    ((candidatePeaks spectrogram).Nodup ∧
      ∀ tok : Token, tok ∈ candidatePeaks spectrogram ↔
        ∃ (t f : Nat), tok = ⟨(t : Int), (f : Int), tok.Amp⟩ ∧
          IsCandidatePeak spectrogram t f tok.Amp) ∧
    ∃ peaks : List Token, findPeaks spectrogram topN = .ok peaks ∧
      peaks.length = min topN (candidatePeaks spectrogram).length ∧
      peaks.Nodup ∧
      (∀ p ∈ peaks, ∃ (t f : Nat), p = ⟨(t : Int), (f : Int), p.Amp⟩ ∧
        IsCandidatePeak spectrogram t f p.Amp) ∧
      (∀ (t f : Nat) (amp : ℚ), IsCandidatePeak spectrogram t f amp →
        (⟨(t : Int), (f : Int), amp⟩ : Token) ∉ peaks → ∀ p ∈ peaks, ¬ p.Amp < amp) := by
  refine ⟨⟨nodup_candidatePeaks spectrogram, mem_candidatePeaks spectrogram⟩, ?_⟩
  obtain ⟨peaks, rest, hres, hperm, hlen, hle⟩ := findPeaks_perm spectrogram topN htop
  have hnd : (peaks ++ rest).Nodup := hperm.nodup_iff.mpr (nodup_candidatePeaks spectrogram)
  refine ⟨peaks, hres, hlen, (List.nodup_append.mp hnd).1, ?_, ?_⟩
  · intro p hp
    exact (mem_candidatePeaks spectrogram p).mp (hperm.subset (List.mem_append_left _ hp))
  · intro t f amp hc hnot p hp
    have hmem : (⟨(t : Int), (f : Int), amp⟩ : Token) ∈ candidatePeaks spectrogram :=
      (mem_candidatePeaks spectrogram _).mpr ⟨t, f, rfl, hc⟩
    rcases List.mem_append.mp (hperm.symm.subset hmem) with h | h
    · exact absurd h hnot
    · exact not_lt.mpr (hle _ h p hp)

/-- Witness for C10: the spectrogram `[[1, 5, 2, 7, 3], [9, 4, 1]]` with `topN = 1`. -/
theorem findPeaks_topN_witness :
    ∃ peaks : List Token, findPeaks [[1, 5, 2, 7, 3], [9, 4, 1]] 1 = .ok peaks ∧
      peaks.length = min 1 (candidatePeaks [[1, 5, 2, 7, 3], [9, 4, 1]]).length ∧
      peaks.Nodup ∧
      (∀ p ∈ peaks, ∃ (t f : Nat), p = ⟨(t : Int), (f : Int), p.Amp⟩ ∧
        IsCandidatePeak [[1, 5, 2, 7, 3], [9, 4, 1]] t f p.Amp) ∧
      (∀ (t f : Nat) (amp : ℚ), IsCandidatePeak [[1, 5, 2, 7, 3], [9, 4, 1]] t f amp →
        (⟨(t : Int), (f : Int), amp⟩ : Token) ∉ peaks → ∀ p ∈ peaks, ¬ p.Amp < amp) :=
  (findPeaks_topN [[1, 5, 2, 7, 3], [9, 4, 1]] 1 (by decide)).2

/-- C11 at the failing input `[1, 2, 3, 4, 5]`: `complex128ArrToMagArr` returns `[15, 0]`, the
sum of the group and not its average `15 / 5 = 3`, because line 50 tests `bin % 5`, which is 0
for this group.  Only groups with index `k % 5 = 4` are divided, once after every addition: for
twenty ones followed by `[5, 5]` the output at `k = 4` is `(5 / 5 + 5) / 5 = 6 / 5`, not the
average `10 / 5 = 2`. -/
theorem complex128ArrToMagArr_sums_group :
    complex128ArrToMagArr [1, 2, 3, 4, 5] = [15, 0] ∧
    groupSum [1, 2, 3, 4, 5] 0 / 5 = 3 ∧
    (complex128ArrToMagArr (List.replicate 20 1 ++ [5, 5]))[4]? = some (6 / 5) ∧
    groupSum (List.replicate 20 1 ++ [5, 5]) 4 / 5 = 2 := by
  refine ⟨?_, ?_, ?_, ?_⟩
  · simp [complex128ArrToMagArr, List.enum, List.enumFrom, List.replicate]
    norm_num
  · simp [groupSum, List.enum, List.enumFrom, List.filter]
    norm_num
  · simp [complex128ArrToMagArr, List.enum, List.enumFrom, List.replicate]
    norm_num
  · simp [groupSum, List.enum, List.enumFrom, List.filter, List.replicate]
    norm_num

end Gozam
